import Mathlib

/-!
# Verification of the DCSC strongly-connected-components code

Shallow embedding of the repository's core (`fpp_vertex_permuter.hpp`,
`graph_util.hpp`, `scc_dcsc_regular.hpp`) and proofs about it.

Machine integers are modelled as `Nat` with explicit reductions modulo
`2^32` / `2^64` exactly where the C++ arithmetic wraps; `std::set<uint32_t>`
is modelled as `Finset Nat`.  The distributed vertex map is modelled as a
total function `Nat → VtxInfo` together with the finite carrier of created
vertex ids; asynchronous visits are modelled either as quiesced
barrier-to-barrier functions (when the message handlers commute) or as a
nondeterministic small-step relation on states carrying the multiset of
in-flight messages (trim and pivot propagation), which covers every
delivery interleaving of the actual runtime, including the one the code's
priority queue realises.
-/

/-- `2^32`, the modulus of the C++ `uint32_t` arithmetic. -/
def U32 : Nat := 2 ^ 32

/-- `2^64`, the modulus of the C++ `uint64_t` arithmetic. -/
def U64 : Nat := 2 ^ 64

/-- The value of `(uint32_t)(-1)`, used by the code as the ⊥ sentinel for
32-bit fields (`my_marker`, `my_pivot`, `wcc_pivot`). -/
def botU32 : Nat := 2 ^ 32 - 1

/-- The value of `(uint64_t)(-1)`, the ⊥ sentinel of the 64-bit `comp_id`. -/
def botU64 : Nat := 2 ^ 64 - 1

/-! ## The format-preserving permuter (`fpp_vertex_permuter.hpp`) -/

/-- `FppPermuter::mix_key64_to_32`: SplitMix64 finalizer folded to 32 bits. -/
def mixKey64to32 (seed : Nat) : Nat :=
  let z := (seed + 0x9E3779B97F4A7C15) % U64
  let z := z ^^^ (z >>> 30)
  let z := (z * 0xBF58476D1CE4E5B9) % U64
  let z := z ^^^ (z >>> 27)
  let z := (z * 0x94D049BB133111EB) % U64
  let z := z ^^^ (z >>> 31)
  (z ^^^ (z >>> 32)) &&& 0xFFFFFFFF

/-- The loop of `FppPermuter::ceil_log2_u64`: count how many right shifts
send `v` to zero, accumulating in `l`. -/
def clog2Aux (v l : Nat) : Nat :=
  if h : v = 0 then l else clog2Aux (v / 2) (l + 1)
termination_by v
decreasing_by exact Nat.div_lt_self (Nat.pos_of_ne_zero h) (by decide)

/-- `FppPermuter::ceil_log2_u64` (precondition in the source: `n ≥ 1`). -/
def ceilLog2U64 (n : Nat) : Nat := clog2Aux (n - 1) 0

/-- The cached state computed by the `FppPermuter` constructor. -/
structure FppData where
  min_id : Nat
  max_id : Nat
  seed : Nat
  full32 : Bool
  R : Nat
  m : Nat
  mask : Nat
  key : Nat
  k1 : Nat
  k2 : Nat

/-- The `FppPermuter` constructor: degenerate ranges (`max ≤ min`) are reset
to `[0, 0]`; `R = max - min + 1`, `m = ⌈log₂ R⌉` (at least 1),
`mask = 2^m - 1`; the key and the two odd round constants are derived from
the seed with 32-bit wrap-around arithmetic. -/
def mkFppPermuter (min0 max0 seed : Nat) : FppData :=
  let mn := if max0 ≤ min0 then 0 else min0
  let mx := if max0 ≤ min0 then 0 else max0
  let R64 := mx - mn + 1
  let full32 := decide (2 ^ 32 ≤ R64)
  let R := if full32 then 0 else R64
  let m := if full32 then 32 else if R ≤ 1 then 1 else ceilLog2U64 R
  let mask := 2 ^ m - 1
  let key := mixKey64to32 seed
  let k1 := ((key * 0x9E3779B1 + 0x85EBCA77) % U32) ||| 1
  let k2 := ((key * 0xC2B2AE3D + 0x27D4EB2F) % U32) ||| 1
  ⟨mn, mx, seed, full32, R, m, mask, key, k1, k2⟩

/-- The first shift amount of `permute_pow2`: `m/2 ? m/2 : 1`. -/
def shiftA (m : Nat) : Nat := if m / 2 ≠ 0 then m / 2 else 1

/-- The second shift amount of `permute_pow2`: `(m+1)/3 ? (m+1)/3 : 1`. -/
def shiftB (m : Nat) : Nat := if (m + 1) / 3 ≠ 0 then (m + 1) / 3 else 1

/-- One `v ^= key; v &= mask` statement of `permute_pow2`. -/
def stepXorKey (mask k x : Nat) : Nat := (x ^^^ k) &&& mask

/-- One `v ^= (v >> s); v &= mask` statement of `permute_pow2`. -/
def stepXorShift (mask s x : Nat) : Nat := (x ^^^ (x >>> s)) &&& mask

/-- One `v = mul_masked(v, k); v &= mask` statement: `mul_masked` is
`(x * k) & mask`, and `uint32_t` multiplication wraps at `2^32` before the
mask, which equals masking the exact product since `mask` has at most 32
bits. -/
def stepMul (mask k x : Nat) : Nat := (x * k) &&& mask

/-- The final `v += key; v &= mask` statement, with the same wrap-around
remark as `stepMul`. -/
def stepAdd (mask k x : Nat) : Nat := (x + k) &&& mask

/-- `FppPermuter::permute_pow2`: the statement sequence of the source,
composed inside-out — mask the input, xor the key, xor-shift by `shiftA`,
multiply by `k1`, xor-shift by `shiftB`, multiply by `k2`, xor-shift by
`shiftA` again, and add the key, everything masked to `m` bits. -/
def permutePow2 (p : FppData) (x : Nat) : Nat :=
  stepAdd p.mask p.key
    (stepXorShift p.mask (shiftA p.m)
      (stepMul p.mask p.k2
        (stepXorShift p.mask (shiftB p.m)
          (stepMul p.mask p.k1
            (stepXorShift p.mask (shiftA p.m)
              (stepXorKey p.mask p.key (x &&& p.mask)))))))

/-- The do-while loop of `FppPermuter::fpp_permute_in_range`, made total
with an explicit fuel parameter; `none` means the fuel ran out.  The
termination theorem below shows fuel `2^m` always suffices. -/
def fppWalk (p : FppData) (fuel x : Nat) : Option Nat :=
  match fuel with
  | 0 => none
  | fuel' + 1 =>
    let y := permutePow2 p x
    if y < p.R then some y else fppWalk p fuel' y

/-- `FppPermuter::fpp_permute_in_range` (cycle walking), run with fuel
`2^m`, which the termination theorem shows is never exhausted. -/
def fppPermuteInRange (p : FppData) (x : Nat) : Nat :=
  (fppWalk p (2 ^ p.m) x).getD 0

/-- `FppPermuter::operator()`: out-of-range ids pass through unchanged; on
the full 32-bit range the pow2 bijection is used directly; otherwise cycle
walking restricts it to `[0, R)`. -/
def fppPermute (p : FppData) (id : Nat) : Nat :=
  if id < p.min_id ∨ p.max_id < id then id
  else if p.full32 then permutePow2 p (id - p.min_id) + p.min_id
  else fppPermuteInRange p (id - p.min_id) + p.min_id

/-! ## The vertex record (`graph_util.hpp`, struct `VtxInfo`) -/

/-- The per-vertex record.  `in` is a reserved word in Lean, hence `in_`. -/
structure VtxInfo where
  out : Finset Nat
  in_ : Finset Nat
  comp_id : Nat := botU64
  active : Bool := true
  my_marker : Nat := botU32
  my_pivot : Nat := botU32
  wcc_pivot : Nat := botU32
  mark_pred : Bool := false
  mark_desc : Bool := false
deriving DecidableEq

/-- `VtxInfo::serialize` lists `out, in, comp_id, active, my_pivot,
mark_pred, mark_desc` — and nothing else — so this tuple is exactly what
crosses the wire. -/
def serializeVtx (i : VtxInfo) :
    Finset Nat × Finset Nat × Nat × Bool × Nat × Bool × Bool :=
  (i.out, i.in_, i.comp_id, i.active, i.my_pivot, i.mark_pred, i.mark_desc)

/-- Deserialization: the archived fields are read back into a
default-constructed `VtxInfo`; the fields absent from `serialize`
(`my_marker`, `wcc_pivot`) keep their in-class initializers (`-1`). -/
def deserializeVtx (d : Finset Nat × Finset Nat × Nat × Bool × Nat × Bool × Bool) :
    VtxInfo :=
  { out := d.1, in_ := d.2.1, comp_id := d.2.2.1, active := d.2.2.2.1,
    my_pivot := d.2.2.2.2.1, mark_pred := d.2.2.2.2.2.1,
    mark_desc := d.2.2.2.2.2.2 }

/-! ## Graph state -/

/-- The distributed `ygm::container::map<uint32_t, VtxInfo>`, collapsed
across ranks: the finite set of created vertex ids plus a total record
function. -/
structure GState where
  verts : Finset Nat
  info : Nat → VtxInfo

/-! ## Freeze (`prep_unterminated`, scc_dcsc_regular.hpp lines 12-40) -/

/-- The body of the `for_all` in `prep_unterminated`, acting on one
record: inactive records are skipped; a both-marked active record is
finalized (`comp_id = my_marker`, `active = false`); any other active
record has its per-round fields reset to `-1` / `false`. -/
def freezeVtx (i : VtxInfo) : VtxInfo :=
  if i.active = false then i
  else if i.mark_pred = true ∧ i.mark_desc = true then
    { i with active := false, comp_id := i.my_marker }
  else
    { i with mark_pred := false, mark_desc := false,
             my_marker := botU32, my_pivot := botU32, wcc_pivot := botU32 }

/-- `prep_unterminated`: the scan above applied to every record, paired
with the returned count.  The source increments `num_unterminated` for
every record that is active at entry, before the both-marked test, so the
returned (cluster-summed) value is the number of vertices active at entry
to the scan. -/
def prepUnterminated (s : GState) : GState × Nat :=
  (⟨s.verts, fun v => if v ∈ s.verts then freezeVtx (s.info v) else s.info v⟩,
   (s.verts.filter (fun v => (s.info v).active = true)).card)

/-! ## Shear (`shear_edges`, scc_dcsc_regular.hpp lines 42-71) -/

/-- The `(mark_pred, mark_desc)` disagreement test of
`check_and_remove_in`. -/
def marksDiffer (a b : VtxInfo) : Bool :=
  a.mark_pred != b.mark_pred || a.mark_desc != b.mark_desc

/-- `shear_edges`, quiesced over its barrier.  Every active vertex `w`
sends a check carrying its marks to each `u ∈ w.out`; at `u`, differing
marks erase `w` from `u.in` and a reply erases `u` from `w.out`.  Marks
are never written during the phase, each reply erases only an edge its
sender has already scanned, and the set erasures commute, so the
barrier-quiesced result is this pointwise state. -/
def shearEdges (s : GState) : GState :=
  ⟨s.verts, fun u =>
    let i := s.info u
    let i1 : VtxInfo :=
      { i with in_ := i.in_.filter (fun w =>
          ¬(w ∈ s.verts ∧ (s.info w).active = true ∧ u ∈ (s.info w).out ∧
            marksDiffer (s.info w) i = true)) }
    if u ∈ s.verts ∧ (s.info u).active = true then
      { i1 with out := i1.out.filter (fun w =>
          marksDiffer (s.info u) (s.info w) = false) }
    else i1⟩

/-! ## Forward marking handler (`prop_pivots::comp_pivot_fwd`) -/

/-- `comp_pivot_fwd::operator()`: the forward flood handler, returning the
updated record and the list of forwarded `(target, pivot, marker)`
messages. -/
def compPivotFwd (info : VtxInfo) (pivot marker : Nat) :
    VtxInfo × List (Nat × Nat × Nat) :=
  if info.active = false ∨ info.mark_desc = true then (info, [])
  else if pivot = info.wcc_pivot then
    ({ info with mark_desc := true, my_marker := marker },
     (info.out.sort (· ≤ ·)).map (fun n => (n, pivot, marker)))
  else (info, [])

/-- `comp_pivot_bwd::operator()`: the symmetric backward flood handler. -/
def compPivotBwd (info : VtxInfo) (pivot marker : Nat) :
    VtxInfo × List (Nat × Nat × Nat) :=
  if info.active = false ∨ info.mark_pred = true then (info, [])
  else if pivot = info.wcc_pivot then
    ({ info with mark_pred := true, my_marker := marker },
     (info.in_.sort (· ≤ ·)).map (fun n => (n, pivot, marker)))
  else (info, [])

/-! ## Concrete states used by counterexamples and witnesses -/

/-- One active vertex, marked both ways: the freeze scan finalizes it yet
still counts it in the returned value. -/
def sC3 : GState :=
  ⟨{1}, fun _ => { out := ∅, in_ := ∅, mark_pred := true, mark_desc := true }⟩

/-- One active unmarked isolated vertex. -/
def sC3w : GState := ⟨{1}, fun _ => { out := ∅, in_ := ∅ }⟩

/-- A post-marking state: vertices 1 and 2 are both remaining (not
both-marked) and ended the marking phase in different classes —
1 is predecessor-marked, 2 is descendant-marked — with the edge 1 → 2
between them. -/
def sC5 : GState :=
  ⟨{1, 2}, fun v =>
    if v = 1 then { out := {2}, in_ := ∅, mark_pred := true, mark_desc := false }
    else { out := ∅, in_ := {1}, mark_pred := false, mark_desc := true }⟩

/-- A record with a set marker, used to show the serialize round trip is
not the identity. -/
def vC10 : VtxInfo := { out := ∅, in_ := ∅, my_marker := 0 }

/-- A record for the forward-handler witness: active, unmarked, with
`wcc_pivot = 5` and a single out-neighbor `4`. -/
def vC7 : VtxInfo := { out := {4}, in_ := ∅, wcc_pivot := 5 }

/-! ## C10: the serialize round trip -/

/-- C10: deserializing a serialized record restores `out`, `in`,
`comp_id`, `active`, `my_pivot`, `mark_pred` and `mark_desc`, but always
yields `my_marker = ⊥` and `wcc_pivot = ⊥` (the in-class initializers of a
fresh record), whatever the original held; consequently the round trip is
not the identity on a full record. -/
theorem c10_serialize_roundtrip :
    (∀ i : VtxInfo, deserializeVtx (serializeVtx i) =
      { i with my_marker := botU32, wcc_pivot := botU32 }) ∧
    (∃ j : VtxInfo, deserializeVtx (serializeVtx j) ≠ j) := by
  constructor
  · intro i
    cases i
    rfl
  · exact ⟨vC10, by decide⟩

/-! ## C7: the forward marking handler -/

/-- C7: `comp_pivot_fwd` at `u` with arguments `(pivot, marker)` drops the
message (record unchanged, nothing sent) when `u` is inactive, or already
descendant-marked, or the pivot does not match `u.wcc_pivot`; otherwise it
sets `mark_desc`, records `my_marker = marker`, and forwards the same
`(pivot, marker)` to every member of `u.out`. -/
theorem c7_forward_handler (info : VtxInfo) (pivot marker : Nat) :
    ((info.active = false ∨ info.mark_desc = true) →
      compPivotFwd info pivot marker = (info, [])) ∧
    (info.active = true → info.mark_desc = false → pivot ≠ info.wcc_pivot →
      compPivotFwd info pivot marker = (info, [])) ∧
    (info.active = true → info.mark_desc = false → pivot = info.wcc_pivot →
      compPivotFwd info pivot marker =
        ({ info with mark_desc := true, my_marker := marker },
         (info.out.sort (· ≤ ·)).map (fun n => (n, pivot, marker)))) := by
  refine ⟨fun h => ?_, fun ha hm hp => ?_, fun ha hm hp => ?_⟩
  · unfold compPivotFwd
    rw [if_pos h]
  · unfold compPivotFwd
    rw [if_neg (by simp [ha, hm]), if_neg hp]
  · unfold compPivotFwd
    rw [if_neg (by simp [ha, hm]), if_pos hp]

/-- Witness for C7 at a concrete record: the matching-pivot case fires and
forwards to the single out-neighbor. -/
theorem c7_forward_handler_witness :
    vC7.active = true ∧ vC7.mark_desc = false ∧ (5 : Nat) = vC7.wcc_pivot ∧
    compPivotFwd vC7 5 7 =
      ({ vC7 with mark_desc := true, my_marker := 7 }, [(4, 5, 7)]) := by
  refine ⟨rfl, rfl, rfl, ?_⟩
  have h := (c7_forward_handler vC7 5 7).2.2 rfl rfl rfl
  have hs : (vC7.out.sort (· ≤ ·)) = [4] := by
    rw [show vC7.out = {4} from rfl, Finset.sort_singleton]
  rw [h, hs]
  rfl

/-! ## C3: the freeze scan and its returned count -/

/-- C3 counterexample: on a single both-marked active vertex the freeze
scan finalizes the vertex (no vertex is active afterwards) yet returns 1,
because the source increments `num_unterminated` before testing
`mark_pred && mark_desc`; this refutes "a both-marked vertex is counted as
terminated" and "the returned value is zero iff no vertex is still active
after the freeze scan". -/
theorem c3_counterexample :
    (prepUnterminated sC3).2 = 1 ∧
    ((prepUnterminated sC3).1.info 1).active = false ∧
    ((prepUnterminated sC3).1.info 1).comp_id = botU32 := by
  refine ⟨?_, ?_, ?_⟩ <;> decide

/-- C3 amended: the freeze scan finalizes a both-marked active vertex
(`comp_id = my_marker`, `active = false`) and leaves every other active
vertex active; but the returned value counts every vertex that was active
at entry — including the ones finalized by this very scan — so it is zero
iff no vertex was active at entry, not iff none is active afterwards. -/
theorem c3_freeze_amended (s : GState) :
    ((prepUnterminated s).2 = 0 ↔ ∀ v ∈ s.verts, (s.info v).active = false) ∧
    (∀ v ∈ s.verts, (s.info v).active = true →
      (s.info v).mark_pred = true → (s.info v).mark_desc = true →
        ((prepUnterminated s).1.info v).active = false ∧
        ((prepUnterminated s).1.info v).comp_id = (s.info v).my_marker) ∧
    (∀ v ∈ s.verts, (s.info v).active = true →
      ¬((s.info v).mark_pred = true ∧ (s.info v).mark_desc = true) →
        ((prepUnterminated s).1.info v).active = true ∧
        ((prepUnterminated s).1.info v).comp_id = (s.info v).comp_id) := by
  refine ⟨?_, ?_, ?_⟩
  · unfold prepUnterminated
    simp only [Finset.card_eq_zero, Finset.filter_eq_empty_iff]
    constructor
    · intro h v hv
      have := h hv
      simpa using this
    · intro h v hv
      simp [h v hv]
  · intro v hv ha hp hd
    unfold prepUnterminated
    simp only [hv, if_pos]
    unfold freezeVtx
    rw [if_neg (by simp [ha]), if_pos ⟨hp, hd⟩]
    exact ⟨rfl, rfl⟩
  · intro v hv ha hnot
    unfold prepUnterminated
    simp only [hv, if_pos]
    unfold freezeVtx
    rw [if_neg (by simp [ha]), if_neg hnot]
    exact ⟨ha, rfl⟩

/-- Witness for C3 amended: on a single unmarked active vertex the scan
keeps the vertex active and the returned count is nonzero. -/
theorem c3_freeze_amended_witness :
    (1 ∈ sC3w.verts ∧ (sC3w.info 1).active = true ∧
      ¬((sC3w.info 1).mark_pred = true ∧ (sC3w.info 1).mark_desc = true)) ∧
    ((prepUnterminated sC3w).1.info 1).active = true ∧
    ((prepUnterminated sC3w).1.info 1).comp_id = (sC3w.info 1).comp_id := by
  refine ⟨⟨by decide, by decide, by decide⟩, ?_⟩
  exact (c3_freeze_amended sC3w).2.2 1 (by decide) (by decide) (by decide)

/-! ## C5: shearing after the freeze step -/

/-- C5 counterexample: vertices 1 and 2 of `sC5` ended the marking phase
in different classes (predecessor-only vs descendant-only), both remain
active through the freeze, yet the edge 1 → 2 survives shearing — because
the freeze scan resets the marks of every remaining vertex to
`(false, false)` before `shear_edges` compares them. -/
theorem c5_counterexample :
    marksDiffer (sC5.info 1) (sC5.info 2) = true ∧
    ((prepUnterminated sC5).1.info 1).active = true ∧
    ((prepUnterminated sC5).1.info 2).active = true ∧
    2 ∈ ((shearEdges (prepUnterminated sC5).1).info 1).out ∧
    1 ∈ ((shearEdges (prepUnterminated sC5).1).info 2).in_ := by
  refine ⟨?_, ?_, ?_, ?_, ?_⟩ <;> decide

/-- The out-set of an active vertex after shearing: exactly the
out-neighbors whose marks agree with the vertex's own. -/
theorem shear_out_eq (t : GState) (v : Nat)
    (h : v ∈ t.verts ∧ (t.info v).active = true) :
    ((shearEdges t).info v).out =
      (t.info v).out.filter (fun w => marksDiffer (t.info v) (t.info w) = false) := by
  unfold shearEdges
  dsimp only
  rw [if_pos h]

/-- The in-set of any vertex after shearing: exactly the in-neighbors that
did not send a differing-marks check to it. -/
theorem shear_in_eq (t : GState) (v : Nat) :
    ((shearEdges t).info v).in_ =
      (t.info v).in_.filter (fun w =>
        ¬(w ∈ t.verts ∧ (t.info w).active = true ∧ v ∈ (t.info w).out ∧
          marksDiffer (t.info w) (t.info v) = true)) := by
  unfold shearEdges
  dsimp only
  split <;> rfl

/-- A record still active after the freeze scan took the reset branch:
its marks are cleared and its adjacency and activity are untouched. -/
theorem freezeVtx_active (i : VtxInfo) (h : (freezeVtx i).active = true) :
    (freezeVtx i).mark_pred = false ∧ (freezeVtx i).mark_desc = false ∧
    (freezeVtx i).out = i.out ∧ (freezeVtx i).in_ = i.in_ ∧
    i.active = true := by
  unfold freezeVtx at *
  by_cases h1 : i.active = false
  · rw [if_pos h1] at h
    exact absurd h (by simp [h1])
  · rw [if_neg h1] at *
    by_cases h2 : i.mark_pred = true ∧ i.mark_desc = true
    · rw [if_pos h2] at h
      simp at h
    · rw [if_neg h2] at *
      exact ⟨rfl, rfl, rfl, rfl, by simpa using h1⟩

/-- The freeze scan rewrites the record of a carrier vertex through
`freezeVtx` and leaves non-carrier records alone. -/
theorem prep_info_eq (s : GState) (v : Nat) (hv : v ∈ s.verts) :
    (prepUnterminated s).1.info v = freezeVtx (s.info v) := by
  unfold prepUnterminated
  simp [hv]

/-- C5 amended: after the freeze scan, shearing removes (symmetrically)
exactly the edges whose endpoints' marks differ *at shear time*; but the
freeze scan has already reset every remaining vertex's marks to
`(false, false)`, so all remaining vertices are in one class and every
edge between two remaining vertices survives — including edges between
vertices that ended the marking phase in different classes. -/
theorem c5_shear_amended (s : GState) :
    (∀ v ∈ (prepUnterminated s).1.verts,
      ((prepUnterminated s).1.info v).active = true →
      ∀ u ∈ ((prepUnterminated s).1.info v).out,
        marksDiffer ((prepUnterminated s).1.info v)
            ((prepUnterminated s).1.info u) = true →
          u ∉ ((shearEdges (prepUnterminated s).1).info v).out ∧
          v ∉ ((shearEdges (prepUnterminated s).1).info u).in_) ∧
    (∀ v ∈ s.verts, ((prepUnterminated s).1.info v).active = true →
      ((prepUnterminated s).1.info v).mark_pred = false ∧
      ((prepUnterminated s).1.info v).mark_desc = false) ∧
    (∀ v u, v ∈ s.verts → u ∈ s.verts →
      ((prepUnterminated s).1.info v).active = true →
      ((prepUnterminated s).1.info u).active = true →
      (u ∈ ((prepUnterminated s).1.info v).out →
        u ∈ ((shearEdges (prepUnterminated s).1).info v).out) ∧
      (v ∈ ((prepUnterminated s).1.info u).in_ →
        v ∈ ((shearEdges (prepUnterminated s).1).info u).in_)) := by
  set t := (prepUnterminated s).1 with ht
  have hmarks : ∀ v ∈ s.verts, (t.info v).active = true →
      (t.info v).mark_pred = false ∧ (t.info v).mark_desc = false := by
    intro v hv ha
    rw [ht, prep_info_eq s v hv] at ha ⊢
    exact ⟨(freezeVtx_active _ ha).1, (freezeVtx_active _ ha).2.1⟩
  have hverts : t.verts = s.verts := rfl
  refine ⟨?_, hmarks, ?_⟩
  · intro v hv ha u hu hdiff
    constructor
    · rw [shear_out_eq t v ⟨hv, ha⟩]
      intro hmem
      have := (Finset.mem_filter.mp hmem).2
      simp only [hdiff] at this
      exact absurd this (by simp)
    · rw [shear_in_eq t u]
      intro hmem
      exact (Finset.mem_filter.mp hmem).2 ⟨hv, ha, hu, hdiff⟩
  · intro v u hv hu hav hau
    have hv' : v ∈ t.verts := by rw [hverts]; exact hv
    have hu' : u ∈ t.verts := by rw [hverts]; exact hu
    have hmv := hmarks v hv hav
    have hmu := hmarks u hu hau
    have hdiff : marksDiffer (t.info v) (t.info u) = false := by
      unfold marksDiffer
      rw [hmv.1, hmv.2, hmu.1, hmu.2]
      rfl
    constructor
    · intro hmem
      rw [shear_out_eq t v ⟨hv', hav⟩]
      exact Finset.mem_filter.mpr ⟨hmem, by simp [hdiff]⟩
    · intro hmem
      rw [shear_in_eq t u]
      refine Finset.mem_filter.mpr ⟨hmem, ?_⟩
      intro hcon
      rw [hdiff] at hcon
      exact absurd hcon.2.2.2 (by simp)

/-- Witness for C5 amended, instantiated on the two-class post-marking
state `sC5`: both vertices remain active with cleared marks and the edge
1 → 2 survives the shear. -/
theorem c5_shear_amended_witness :
    (1 ∈ sC5.verts ∧ 2 ∈ sC5.verts ∧
      ((prepUnterminated sC5).1.info 1).active = true ∧
      ((prepUnterminated sC5).1.info 2).active = true ∧
      2 ∈ ((prepUnterminated sC5).1.info 1).out) ∧
    2 ∈ ((shearEdges (prepUnterminated sC5).1).info 1).out := by
  refine ⟨⟨by decide, by decide, by decide, by decide, by decide⟩, ?_⟩
  exact ((c5_shear_amended sC5).2.2 1 2 (by decide) (by decide) (by decide)
    (by decide)).1 (by decide)

/-! ## Arithmetic facts about the pow2 scramble -/

/-- The golden-ratio base seed used by `init_wcc_pivots`. -/
def goldenSeed : Nat := 0x9E3779B97F4A7C15

theorem mask_and_lt (m x : Nat) : x &&& (2 ^ m - 1) < 2 ^ m :=
  lt_of_le_of_lt Nat.and_le_right (Nat.sub_lt (Nat.pos_pow_of_pos m (by decide)) one_pos)

theorem mask_and_of_lt {m x : Nat} (h : x < 2 ^ m) : x &&& (2 ^ m - 1) = x := by
  rw [Nat.and_pow_two_sub_one_eq_mod, Nat.mod_eq_of_lt h]

theorem stepXorKey_inj {m k x y : Nat} (hx : x < 2 ^ m) (hy : y < 2 ^ m)
    (h : stepXorKey (2 ^ m - 1) k x = stepXorKey (2 ^ m - 1) k y) : x = y := by
  unfold stepXorKey at h
  rw [Nat.and_xor_distrib_right, Nat.and_xor_distrib_right,
    mask_and_of_lt hx, mask_and_of_lt hy] at h
  calc x = x ^^^ (k &&& (2 ^ m - 1)) ^^^ (k &&& (2 ^ m - 1)) :=
        (Nat.xor_cancel_right _ _).symm
    _ = y ^^^ (k &&& (2 ^ m - 1)) ^^^ (k &&& (2 ^ m - 1)) := by rw [h]
    _ = y := Nat.xor_cancel_right _ _

theorem shiftRight_lt_of_lt {m s x : Nat} (hx : x < 2 ^ m) : x >>> s < 2 ^ m :=
  lt_of_le_of_lt (by rw [Nat.shiftRight_eq_div_pow]; exact Nat.div_le_self _ _) hx

theorem stepXorShift_inj {m s x y : Nat} (hs : 1 ≤ s) (hx : x < 2 ^ m)
    (hy : y < 2 ^ m)
    (h : stepXorShift (2 ^ m - 1) s x = stepXorShift (2 ^ m - 1) s y) : x = y := by
  unfold stepXorShift at h
  rw [mask_and_of_lt (Nat.xor_lt_two_pow hx (shiftRight_lt_of_lt hx)),
    mask_and_of_lt (Nat.xor_lt_two_pow hy (shiftRight_lt_of_lt hy))] at h
  have key : ∀ k i, m ≤ i + k → x.testBit i = y.testBit i := by
    intro k
    induction k with
    | zero =>
      intro i hi
      rw [Nat.testBit_lt_two_pow
          (lt_of_lt_of_le hx (Nat.pow_le_pow_right (by decide) (by omega))),
        Nat.testBit_lt_two_pow
          (lt_of_lt_of_le hy (Nat.pow_le_pow_right (by decide) (by omega)))]
    | succ k ih =>
      intro i hi
      by_cases hik : m ≤ i + k
      · exact ih i hik
      · have hbit := congrArg (fun t => t.testBit i) h
        simp only [Nat.testBit_xor, Nat.testBit_shiftRight] at hbit
        rw [ih (s + i) (by omega)] at hbit
        exact Bool.bne_right_inj.mp hbit
  exact Nat.eq_of_testBit_eq fun i => key m i (by omega)

theorem stepMul_inj {m k x y : Nat} (hk : k % 2 = 1) (hx : x < 2 ^ m)
    (hy : y < 2 ^ m)
    (h : stepMul (2 ^ m - 1) k x = stepMul (2 ^ m - 1) k y) : x = y := by
  unfold stepMul at h
  rw [Nat.and_pow_two_sub_one_eq_mod, Nat.and_pow_two_sub_one_eq_mod] at h
  have hco : Nat.gcd (2 ^ m) k = 1 := by
    have h2 : Nat.Coprime 2 k :=
      (Nat.Prime.coprime_iff_not_dvd Nat.prime_two).mpr (by omega)
    exact Nat.Coprime.pow_left m h2
  have hmod := Nat.ModEq.cancel_right_of_coprime hco h
  unfold Nat.ModEq at hmod
  rw [Nat.mod_eq_of_lt hx, Nat.mod_eq_of_lt hy] at hmod
  exact hmod

theorem stepAdd_inj {m k x y : Nat} (hx : x < 2 ^ m) (hy : y < 2 ^ m)
    (h : stepAdd (2 ^ m - 1) k x = stepAdd (2 ^ m - 1) k y) : x = y := by
  unfold stepAdd at h
  rw [Nat.and_pow_two_sub_one_eq_mod, Nat.and_pow_two_sub_one_eq_mod] at h
  have hmod := Nat.ModEq.add_right_cancel' k h
  unfold Nat.ModEq at hmod
  rw [Nat.mod_eq_of_lt hx, Nat.mod_eq_of_lt hy] at hmod
  exact hmod

theorem shiftA_pos (m : Nat) : 1 ≤ shiftA m := by
  unfold shiftA
  split <;> omega

theorem shiftB_pos (m : Nat) : 1 ≤ shiftB m := by
  unfold shiftB
  split <;> omega

/-- The pow2 scramble keeps its output below `2^m` whenever the cached
mask is `2^m - 1`. -/
theorem permutePow2_lt (p : FppData) (hmask : p.mask = 2 ^ p.m - 1) (x : Nat) :
    permutePow2 p x < 2 ^ p.m := by
  unfold permutePow2 stepAdd
  rw [hmask]
  exact mask_and_lt _ _

/-- The pow2 scramble is injective below `2^m`: every one of its eight
masked statements is. -/
theorem permutePow2_inj (p : FppData) (hmask : p.mask = 2 ^ p.m - 1)
    (hk1 : p.k1 % 2 = 1) (hk2 : p.k2 % 2 = 1) {x y : Nat}
    (hx : x < 2 ^ p.m) (hy : y < 2 ^ p.m)
    (h : permutePow2 p x = permutePow2 p y) : x = y := by
  have hlt : ∀ t : Nat, t &&& p.mask < 2 ^ p.m := by
    intro t
    rw [hmask]
    exact mask_and_lt _ _
  have hltk : ∀ t : Nat, stepXorKey p.mask p.key t < 2 ^ p.m := fun t => hlt _
  have hlts : ∀ s t : Nat, stepXorShift p.mask s t < 2 ^ p.m := fun s t => hlt _
  have hltm : ∀ k t : Nat, stepMul p.mask k t < 2 ^ p.m := fun k t => hlt _
  unfold permutePow2 at h
  rw [hmask] at h
  have h1 := stepAdd_inj (hmask ▸ hlts _ _) (hmask ▸ hlts _ _) h
  have h2 := stepXorShift_inj (shiftA_pos p.m) (hmask ▸ hltm _ _)
    (hmask ▸ hltm _ _) h1
  have h3 := stepMul_inj hk2 (hmask ▸ hlts _ _) (hmask ▸ hlts _ _) h2
  have h4 := stepXorShift_inj (shiftB_pos p.m) (hmask ▸ hltm _ _)
    (hmask ▸ hltm _ _) h3
  have h5 := stepMul_inj hk1 (hmask ▸ hlts _ _) (hmask ▸ hlts _ _) h4
  have h6 := stepXorShift_inj (shiftA_pos p.m) (hmask ▸ hltk _)
    (hmask ▸ hltk _) h5
  have h7 := stepXorKey_inj (hmask ▸ hlt x) (hmask ▸ hlt y) h6
  rw [mask_and_of_lt hx, mask_and_of_lt hy] at h7
  exact h7

/-! ## Facts about the ceil-log2 loop and the constructor's cached state -/

theorem clog2Aux_succ : ∀ v l, clog2Aux v (l + 1) = clog2Aux v l + 1 := by
  intro v
  induction v using Nat.strong_induction_on with
  | _ v ih =>
    intro l
    unfold clog2Aux
    by_cases h : v = 0
    · rw [dif_pos h, dif_pos h]
    · rw [dif_neg h, dif_neg h]
      exact ih (v / 2) (Nat.div_lt_self (Nat.pos_of_ne_zero h) (by decide)) (l + 1)

theorem clog2Aux_ge : ∀ v l, l ≤ clog2Aux v l := by
  intro v
  induction v using Nat.strong_induction_on with
  | _ v ih =>
    intro l
    unfold clog2Aux
    by_cases h : v = 0
    · rw [dif_pos h]
    · rw [dif_neg h]
      exact le_trans (Nat.le_succ l)
        (ih (v / 2) (Nat.div_lt_self (Nat.pos_of_ne_zero h) (by decide)) (l + 1))

theorem lt_two_pow_clog2Aux : ∀ v, v < 2 ^ clog2Aux v 0 := by
  intro v
  induction v using Nat.strong_induction_on with
  | _ v ih =>
    unfold clog2Aux
    by_cases h : v = 0
    · rw [dif_pos h]
      omega
    · rw [dif_neg h, clog2Aux_succ]
      have ih' := ih (v / 2) (Nat.div_lt_self (Nat.pos_of_ne_zero h) (by decide))
      have hdm := Nat.div_add_mod v 2
      rw [pow_succ]
      omega

theorem or_one_odd (t : Nat) : (t ||| 1) % 2 = 1 := by
  have h : (t ||| 1).testBit 0 = true := by
    rw [Nat.testBit_or]
    simp
  rw [Nat.testBit_zero] at h
  exact of_decide_eq_true h

theorem mkFpp_mask (a b s : Nat) :
    (mkFppPermuter a b s).mask = 2 ^ (mkFppPermuter a b s).m - 1 := rfl

theorem mkFpp_k1_odd (a b s : Nat) : (mkFppPermuter a b s).k1 % 2 = 1 :=
  or_one_odd _

theorem mkFpp_k2_odd (a b s : Nat) : (mkFppPermuter a b s).k2 % 2 = 1 :=
  or_one_odd _

/-- In the non-full-range case the cached `R` is the (reset) range size,
it is at least 1, and it fits below `2^m`. -/
theorem mkFpp_R_facts (a b s : Nat)
    (h : (mkFppPermuter a b s).full32 = false) :
    1 ≤ (mkFppPermuter a b s).R ∧
    (mkFppPermuter a b s).R ≤ 2 ^ (mkFppPermuter a b s).m ∧
    (mkFppPermuter a b s).R =
      (mkFppPermuter a b s).max_id - (mkFppPermuter a b s).min_id + 1 := by
  unfold mkFppPermuter at h ⊢
  dsimp only at h ⊢
  simp only [h, Bool.false_eq_true, if_false]
  set R64 := (if b ≤ a then 0 else b) - (if b ≤ a then 0 else a) + 1 with hR64
  by_cases hR : R64 ≤ 1
  · rw [if_pos hR]
    refine ⟨by omega, by omega, trivial⟩
  · rw [if_neg hR]
    refine ⟨by omega, ?_, trivial⟩
    have := lt_two_pow_clog2Aux (R64 - 1)
    unfold ceilLog2U64
    omega

theorem mkFpp_min_le_max (a b s : Nat) :
    (mkFppPermuter a b s).min_id ≤ (mkFppPermuter a b s).max_id := by
  unfold mkFppPermuter
  dsimp only
  by_cases hab : b ≤ a
  · rw [if_pos hab, if_pos hab]
  · rw [if_neg hab, if_neg hab]
    omega

/-! ## Orbits of the pow2 scramble and termination of cycle walking -/

theorem permutePow2_iterate_lt (p : FppData) (hmask : p.mask = 2 ^ p.m - 1)
    (n : Nat) {x : Nat} (hx : x < 2 ^ p.m) :
    (permutePow2 p)^[n] x < 2 ^ p.m := by
  induction n generalizing x with
  | zero => simpa
  | succ n ih =>
    rw [Function.iterate_succ_apply]
    exact ih (permutePow2_lt p hmask x)

theorem permutePow2_iterate_inj (p : FppData) (hmask : p.mask = 2 ^ p.m - 1)
    (hk1 : p.k1 % 2 = 1) (hk2 : p.k2 % 2 = 1) (n : Nat) {x y : Nat}
    (hx : x < 2 ^ p.m) (hy : y < 2 ^ p.m)
    (h : (permutePow2 p)^[n] x = (permutePow2 p)^[n] y) : x = y := by
  induction n generalizing x y with
  | zero => simpa using h
  | succ n ih =>
    rw [Function.iterate_succ_apply, Function.iterate_succ_apply] at h
    exact permutePow2_inj p hmask hk1 hk2 hx hy
      (ih (permutePow2_lt p hmask x) (permutePow2_lt p hmask y) h)

theorem permutePow2_exists_return (p : FppData) (hmask : p.mask = 2 ^ p.m - 1)
    (hk1 : p.k1 % 2 = 1) (hk2 : p.k2 % 2 = 1) {x : Nat} (hx : x < 2 ^ p.m) :
    ∃ j, 1 ≤ j ∧ j ≤ 2 ^ p.m ∧ (permutePow2 p)^[j] x = x := by
  have haux : ∀ i j, i < j → j ≤ 2 ^ p.m →
      (permutePow2 p)^[i] x = (permutePow2 p)^[j] x →
      ∃ j', 1 ≤ j' ∧ j' ≤ 2 ^ p.m ∧ (permutePow2 p)^[j'] x = x := by
    intro i j hij hjN heq
    have hsplit : (permutePow2 p)^[i] ((permutePow2 p)^[j - i] x) =
        (permutePow2 p)^[i] x := by
      rw [← Function.iterate_add_apply]
      have : i + (j - i) = j := by omega
      rw [this, heq]
    exact ⟨j - i, by omega, by omega,
      permutePow2_iterate_inj p hmask hk1 hk2 i
        (permutePow2_iterate_lt p hmask _ hx) hx hsplit⟩
  have hmap : ∀ i ∈ Finset.range (2 ^ p.m + 1),
      (permutePow2 p)^[i] x ∈ Finset.range (2 ^ p.m) := by
    intro i _
    exact Finset.mem_range.mpr (permutePow2_iterate_lt p hmask i hx)
  have hcard : (Finset.range (2 ^ p.m)).card < (Finset.range (2 ^ p.m + 1)).card := by
    simp
  obtain ⟨i, hi, j, hj, hij, heq⟩ :=
    Finset.exists_ne_map_eq_of_card_lt_of_maps_to hcard hmap
  have hi' := Finset.mem_range.mp hi
  have hj' := Finset.mem_range.mp hj
  rcases lt_or_gt_of_ne hij with hlt | hgt
  · exact haux i j hlt (by omega) heq
  · exact haux j i hgt (by omega) heq.symm

/-! ## The cycle walk: characterization, termination, injectivity -/

/-- A successful walk result is the first iterate of the scramble that
lands below `R`. -/
theorem fppWalk_eq_some (p : FppData) : ∀ fuel x z : Nat,
    fppWalk p fuel x = some z →
    ∃ i, 1 ≤ i ∧ i ≤ fuel ∧ z = (permutePow2 p)^[i] x ∧ z < p.R ∧
      ∀ j, 1 ≤ j → j < i → p.R ≤ (permutePow2 p)^[j] x := by
  intro fuel
  induction fuel with
  | zero => intro x z h; simp [fppWalk] at h
  | succ fuel ih =>
    intro x z h
    simp only [fppWalk] at h
    by_cases hy : permutePow2 p x < p.R
    · rw [if_pos hy] at h
      refine ⟨1, le_refl 1, by omega, ?_, ?_, fun j hj1 hji => by omega⟩
      · simpa using (Option.some_injective _ h).symm
      · rw [← Option.some_injective _ h]
        exact hy
    · rw [if_neg hy] at h
      obtain ⟨i, hi1, hif, hz, hzR, hmin⟩ := ih (permutePow2 p x) z h
      refine ⟨i + 1, by omega, by omega, ?_, hzR, ?_⟩
      · rw [Function.iterate_succ_apply]
        exact hz
      · intro j hj1 hji
        obtain ⟨j', rfl⟩ : ∃ t, j = t + 1 := ⟨j - 1, by omega⟩
        by_cases hj'0 : j' = 0
        · subst hj'0
          simpa using le_of_not_lt hy
        · rw [Function.iterate_succ_apply]
          exact hmin j' (by omega) (by omega)

/-- If some iterate within the fuel budget lands below `R`, the walk
succeeds and returns a value below `R`. -/
theorem fppWalk_isSome (p : FppData) : ∀ fuel x : Nat,
    (∃ j, 1 ≤ j ∧ j ≤ fuel ∧ (permutePow2 p)^[j] x < p.R) →
    ∃ z, fppWalk p fuel x = some z ∧ z < p.R := by
  intro fuel
  induction fuel with
  | zero => intro x ⟨j, hj1, hj0, _⟩; omega
  | succ fuel ih =>
    intro x ⟨j, hj1, hjf, hjR⟩
    simp only [fppWalk]
    by_cases hy : permutePow2 p x < p.R
    · rw [if_pos hy]
      exact ⟨permutePow2 p x, rfl, hy⟩
    · rw [if_neg hy]
      obtain ⟨j', rfl⟩ : ∃ t, j = t + 1 := ⟨j - 1, by omega⟩
      have hj'1 : 1 ≤ j' := by
        by_contra h0
        have : j' = 0 := by omega
        subst this
        exact hy (by simpa using hjR)
      refine ih (permutePow2 p x) ⟨j', hj'1, by omega, ?_⟩
      rw [Function.iterate_succ_apply] at hjR
      exact hjR

/-- Asymmetric half of walk injectivity: if two in-range inputs walk to
the same output and the first takes no more steps, they are equal. -/
theorem fppWalk_inj_aux (p : FppData) (hmask : p.mask = 2 ^ p.m - 1)
    (hk1 : p.k1 % 2 = 1) (hk2 : p.k2 % 2 = 1) (hR2 : p.R ≤ 2 ^ p.m)
    {x y i i' : Nat} (hx : x < p.R) (hy : y < p.R) (hi1 : 1 ≤ i) (hle : i ≤ i')
    (heq : (permutePow2 p)^[i] x = (permutePow2 p)^[i'] y)
    (hminy : ∀ j, 1 ≤ j → j < i' → p.R ≤ (permutePow2 p)^[j] y) : x = y := by
  have hx' : x < 2 ^ p.m := lt_of_lt_of_le hx hR2
  have hy' : y < 2 ^ p.m := lt_of_lt_of_le hy hR2
  have hsplit : (permutePow2 p)^[i] x = (permutePow2 p)^[i] ((permutePow2 p)^[i' - i] y) := by
    rw [← Function.iterate_add_apply]
    have : i + (i' - i) = i' := by omega
    rw [this]
    exact heq
  have hxy := permutePow2_iterate_inj p hmask hk1 hk2 i hx'
    (permutePow2_iterate_lt p hmask _ hy') hsplit
  by_cases hii : i = i'
  · rw [hxy]
    have : i' - i = 0 := by omega
    rw [this]
    rfl
  · exfalso
    have hge := hminy (i' - i) (by omega) (by omega)
    rw [← hxy] at hge
    omega

/-- The walk is injective on `[0, R)`. -/
theorem fppWalk_inj (p : FppData) (hmask : p.mask = 2 ^ p.m - 1)
    (hk1 : p.k1 % 2 = 1) (hk2 : p.k2 % 2 = 1) (hR2 : p.R ≤ 2 ^ p.m)
    {fuel fuel' x y z : Nat} (hx : x < p.R) (hy : y < p.R)
    (hwx : fppWalk p fuel x = some z) (hwy : fppWalk p fuel' y = some z) :
    x = y := by
  obtain ⟨i, hi1, _, hzx, _, hminx⟩ := fppWalk_eq_some p fuel x z hwx
  obtain ⟨i', hi'1, _, hzy, _, hminy⟩ := fppWalk_eq_some p fuel' y z hwy
  have heq : (permutePow2 p)^[i] x = (permutePow2 p)^[i'] y := by
    rw [← hzx, ← hzy]
  rcases le_total i i' with hle | hle
  · exact fppWalk_inj_aux p hmask hk1 hk2 hR2 hx hy hi1 hle heq hminy
  · exact (fppWalk_inj_aux p hmask hk1 hk2 hR2 hy hx hi'1 hle heq.symm hminx).symm

/-! ## Constructor case facts and the in-range specification -/

theorem mkFpp_degenerate (a b s : Nat) (hba : b ≤ a) :
    (mkFppPermuter a b s).min_id = 0 ∧ (mkFppPermuter a b s).max_id = 0 ∧
    (mkFppPermuter a b s).full32 = false ∧ (mkFppPermuter a b s).R = 1 ∧
    (mkFppPermuter a b s).m = 1 := by
  unfold mkFppPermuter
  dsimp only
  rw [if_pos hba, if_pos hba]
  refine ⟨rfl, rfl, by decide, by decide, by decide⟩

theorem mkFpp_nondeg (a b s : Nat) (hab : a < b) :
    (mkFppPermuter a b s).min_id = a ∧ (mkFppPermuter a b s).max_id = b := by
  unfold mkFppPermuter
  dsimp only
  rw [if_neg (not_le.mpr hab), if_neg (not_le.mpr hab)]
  exact ⟨rfl, rfl⟩

theorem mkFpp_full32_iff (a b s : Nat) (hab : a < b) :
    (mkFppPermuter a b s).full32 = true ↔ 2 ^ 32 ≤ b - a + 1 := by
  unfold mkFppPermuter
  dsimp only
  rw [if_neg (not_le.mpr hab), if_neg (not_le.mpr hab)]
  exact decide_eq_true_iff

theorem mkFpp_m_full (a b s : Nat)
    (h : (mkFppPermuter a b s).full32 = true) :
    (mkFppPermuter a b s).m = 32 := by
  unfold mkFppPermuter at h ⊢
  dsimp only at h ⊢
  rw [h]
  rfl

/-- In the non-full-range case, the cycle walk on an in-range input
terminates within fuel `2^m` at the first iterate below `R`, and
`fpp_permute_in_range` returns it. -/
theorem fpp_inrange_spec (a b s x : Nat)
    (hfull : (mkFppPermuter a b s).full32 = false)
    (hx : x < (mkFppPermuter a b s).R) :
    ∃ z, fppWalk (mkFppPermuter a b s) (2 ^ (mkFppPermuter a b s).m) x = some z ∧
      z < (mkFppPermuter a b s).R ∧
      fppPermuteInRange (mkFppPermuter a b s) x = z := by
  obtain ⟨hR1, hR2, hRmm⟩ := mkFpp_R_facts a b s hfull
  have hx2 : x < 2 ^ (mkFppPermuter a b s).m := lt_of_lt_of_le hx hR2
  obtain ⟨j, hj1, hjN, hret⟩ := permutePow2_exists_return (mkFppPermuter a b s)
    (mkFpp_mask a b s) (mkFpp_k1_odd a b s) (mkFpp_k2_odd a b s) hx2
  obtain ⟨z, hw, hz⟩ := fppWalk_isSome (mkFppPermuter a b s)
    (2 ^ (mkFppPermuter a b s).m) x ⟨j, hj1, hjN, by rw [hret]; exact hx⟩
  refine ⟨z, hw, hz, ?_⟩
  unfold fppPermuteInRange
  rw [hw]
  rfl

/-! ## C9: termination of the cycle-walking loop -/

/-- C9: in the cycle-walking case, for every `x ∈ [0, R)` the do-while
loop terminates — some iterate of the pow2 bijection lands below `R`
within `2^m` applications — and the permuter returns that value plus
`min_id`. -/
theorem c9_cycle_walk_terminates (a b s x : Nat)
    (hfull : (mkFppPermuter a b s).full32 = false)
    (hx : x < (mkFppPermuter a b s).R) :
    ∃ z, fppWalk (mkFppPermuter a b s) (2 ^ (mkFppPermuter a b s).m) x = some z ∧
      z < (mkFppPermuter a b s).R ∧
      fppPermute (mkFppPermuter a b s) (x + (mkFppPermuter a b s).min_id) =
        z + (mkFppPermuter a b s).min_id := by
  obtain ⟨z, hw, hz, hval⟩ := fpp_inrange_spec a b s x hfull hx
  obtain ⟨hR1, hR2, hRmm⟩ := mkFpp_R_facts a b s hfull
  have hmm := mkFpp_min_le_max a b s
  refine ⟨z, hw, hz, ?_⟩
  unfold fppPermute
  rw [if_neg (by omega), hfull]
  simp only [Bool.false_eq_true, if_false]
  have hsub : x + (mkFppPermuter a b s).min_id - (mkFppPermuter a b s).min_id = x := by
    omega
  rw [hsub, hval]

/-- Witness for C9: the permuter over `[1, 3]` with seed 0 walks `x = 0`
to a value below `R = 3`. -/
theorem c9_cycle_walk_terminates_witness :
    ((mkFppPermuter 1 3 0).full32 = false ∧ 0 < (mkFppPermuter 1 3 0).R) ∧
    ∃ z, fppWalk (mkFppPermuter 1 3 0) (2 ^ (mkFppPermuter 1 3 0).m) 0 = some z ∧
      z < (mkFppPermuter 1 3 0).R ∧
      fppPermute (mkFppPermuter 1 3 0) (0 + (mkFppPermuter 1 3 0).min_id) =
        z + (mkFppPermuter 1 3 0).min_id :=
  ⟨⟨by decide, by decide⟩, c9_cycle_walk_terminates 1 3 0 0 (by decide) (by decide)⟩

/-! ## C2: the permuter is a bijection of the range -/

/-- On a degenerate range (`a = b`) the constructor resets to `[0, 0]` and
the whole map is the identity. -/
theorem fppPermute_degenerate (a b s : Nat) (hba : b ≤ a) (x : Nat) :
    fppPermute (mkFppPermuter a b s) x = x := by
  obtain ⟨hmin, hmax, hfull, hR, hm⟩ := mkFpp_degenerate a b s hba
  by_cases hx : x = 0
  · subst hx
    obtain ⟨z, hw, hz, hval⟩ := fpp_inrange_spec a b s 0 hfull (by omega)
    unfold fppPermute
    rw [if_neg (by omega), hfull]
    simp only [Bool.false_eq_true, if_false]
    rw [hmin]
    have h0 : (0 : Nat) - 0 = 0 := rfl
    rw [h0, hval]
    omega
  · unfold fppPermute
    rw [if_pos (by omega)]

/-- C2: for every seed and every range `[a, b]` (inside the 32-bit id
space), the permuter restricted to `[a, b]` is a bijection of `[a, b]`
onto itself, and every input outside `[a, b]` passes through unchanged. -/
theorem c2_permuter_bijection (a b s : Nat) (hab : a ≤ b) (hb : b < 2 ^ 32) :
    Set.BijOn (fppPermute (mkFppPermuter a b s)) (Set.Icc a b) (Set.Icc a b) ∧
    ∀ x, x ∉ Set.Icc a b → fppPermute (mkFppPermuter a b s) x = x := by
  rcases Nat.eq_or_lt_of_le hab with heq | hlt
  · subst heq
    refine ⟨?_, fun x _ => fppPermute_degenerate a a s le_rfl x⟩
    exact Set.BijOn.congr (Set.bijOn_id _)
      (fun x _ => (fppPermute_degenerate a a s le_rfl x).symm)
  · obtain ⟨hmin, hmax⟩ := mkFpp_nondeg a b s hlt
    have houtside : ∀ x, x ∉ Set.Icc a b → fppPermute (mkFppPermuter a b s) x = x := by
      intro x hx
      rw [Set.mem_Icc] at hx
      unfold fppPermute
      rw [if_pos (by omega)]
    refine ⟨?_, houtside⟩
    by_cases hfull : (mkFppPermuter a b s).full32 = true
    · -- full 32-bit range: a = 0, b = 2^32 - 1, no cycle walking
      have hrange := (mkFpp_full32_iff a b s hlt).mp hfull
      have ha0 : a = 0 := by omega
      have hb1 : b = 2 ^ 32 - 1 := by omega
      have hm := mkFpp_m_full a b s hfull
      have hval : ∀ x ∈ Set.Icc a b,
          fppPermute (mkFppPermuter a b s) x = permutePow2 (mkFppPermuter a b s) x := by
        intro x hx
        rw [Set.mem_Icc] at hx
        unfold fppPermute
        rw [if_neg (by omega), if_pos hfull, hmin, ha0]
        simp
      have hmapsTo : Set.MapsTo (fppPermute (mkFppPermuter a b s))
          (Set.Icc a b) (Set.Icc a b) := by
        intro x hx
        rw [hval x hx, Set.mem_Icc]
        have := permutePow2_lt (mkFppPermuter a b s) (mkFpp_mask a b s) x
        rw [hm] at this
        omega
      have hinj : Set.InjOn (fppPermute (mkFppPermuter a b s)) (Set.Icc a b) := by
        intro x hx y hy hxy
        rw [hval x hx, hval y hy] at hxy
        have hx' := Set.mem_Icc.mp hx
        have hy' := Set.mem_Icc.mp hy
        refine permutePow2_inj (mkFppPermuter a b s) (mkFpp_mask a b s)
          (mkFpp_k1_odd a b s) (mkFpp_k2_odd a b s) ?_ ?_ hxy
        · rw [hm]; omega
        · rw [hm]; omega
      exact (Set.Finite.injOn_iff_bijOn_of_mapsTo (Set.finite_Icc a b) hmapsTo).mp hinj
    · -- cycle walking case
      have hfull' : (mkFppPermuter a b s).full32 = false := by
        revert hfull
        cases (mkFppPermuter a b s).full32 <;> simp
      obtain ⟨hR1, hR2, hRmm⟩ := mkFpp_R_facts a b s hfull'
      have hR : (mkFppPermuter a b s).R = b - a + 1 := by rw [hRmm, hmin, hmax]
      have hval : ∀ x ∈ Set.Icc a b, ∃ z,
          fppWalk (mkFppPermuter a b s) (2 ^ (mkFppPermuter a b s).m) (x - a) = some z ∧
          z < (mkFppPermuter a b s).R ∧
          fppPermute (mkFppPermuter a b s) x = z + a := by
        intro x hx
        rw [Set.mem_Icc] at hx
        obtain ⟨z, hw, hz, hvr⟩ := fpp_inrange_spec a b s (x - a) hfull' (by omega)
        refine ⟨z, hw, hz, ?_⟩
        unfold fppPermute
        rw [if_neg (by omega), hfull']
        simp only [Bool.false_eq_true, if_false]
        rw [hmin, hvr]
      have hmapsTo : Set.MapsTo (fppPermute (mkFppPermuter a b s))
          (Set.Icc a b) (Set.Icc a b) := by
        intro x hx
        obtain ⟨z, _, hz, hfx⟩ := hval x hx
        rw [hfx, Set.mem_Icc]
        omega
      have hinj : Set.InjOn (fppPermute (mkFppPermuter a b s)) (Set.Icc a b) := by
        intro x hx y hy hxy
        obtain ⟨z, hwx, hz, hfx⟩ := hval x hx
        obtain ⟨z', hwy, hz', hfy⟩ := hval y hy
        rw [hfx, hfy] at hxy
        have hzz : z = z' := by omega
        subst hzz
        have hx' := Set.mem_Icc.mp hx
        have hy' := Set.mem_Icc.mp hy
        have := fppWalk_inj (mkFppPermuter a b s) (mkFpp_mask a b s)
          (mkFpp_k1_odd a b s) (mkFpp_k2_odd a b s) hR2
          (x := x - a) (y := y - a) (by omega) (by omega) hwx hwy
        omega
      exact (Set.Finite.injOn_iff_bijOn_of_mapsTo (Set.finite_Icc a b) hmapsTo).mp hinj

/-- Witness for C2 on the concrete range `[1, 3]` with seed 0. -/
theorem c2_permuter_bijection_witness :
    ((1 : Nat) ≤ 3 ∧ (3 : Nat) < 2 ^ 32) ∧
    (Set.BijOn (fppPermute (mkFppPermuter 1 3 0)) (Set.Icc 1 3) (Set.Icc 1 3) ∧
     ∀ x, x ∉ Set.Icc (1 : Nat) 3 → fppPermute (mkFppPermuter 1 3 0) x = x) :=
  ⟨⟨by decide, by decide⟩, c2_permuter_bijection 1 3 0 (by decide) (by decide)⟩

/-! ## Trim (`trim_trivial`, scc_dcsc_regular.hpp lines 231-303) -/

/-- A trim message `(target, sender, direction)`: direction `true` means
the sender had no ancestors (the target erases it from `in`), `false`
means no descendants (erase from `out`). -/
structure TrimMsg where
  target : Nat
  sender : Nat
  dir : Bool
deriving DecidableEq

/-- The two complementary erase statements of `trim_vtx`: direction
`true` erases the sender from `in`, direction `false` from `out`. -/
def vtxErase (i : VtxInfo) (sn : Nat) (d : Bool) : VtxInfo :=
  if d then { i with in_ := i.in_.erase sn }
  else { i with out := i.out.erase sn }

/-- The `trim_vtx` handler: drop at inactive vertices; erase the sender
from the directed side; then, if `in` is empty, finalize as a singleton
SCC and cascade forward over `out` (clearing it); else if `out` is empty,
finalize and cascade backward over `in`. -/
def trimVtx (vtx : Nat) (info : VtxInfo) (sender : Nat) (dir : Bool) :
    VtxInfo × Multiset TrimMsg :=
  if info.active = false then (info, 0)
  else
    let i1 := vtxErase info sender dir
    if i1.in_ = ∅ then
      ({ i1 with comp_id := vtx, active := false, out := ∅ },
       i1.out.val.map (fun d => ⟨d, vtx, true⟩))
    else if i1.out = ∅ then
      ({ i1 with comp_id := vtx, active := false, in_ := ∅ },
       i1.in_.val.map (fun a2 => ⟨a2, vtx, false⟩))
    else (i1, 0)

/-- The local scan body of `trim_trivial`: the source tests `in.empty()`
and then `out.empty()` in sequence, the second test seeing the effects of
the first branch (which is harmless, since the first branch leaves `in`
empty and `out` cleared). -/
def trimScan (vtx : Nat) (info : VtxInfo) : VtxInfo × Multiset TrimMsg :=
  if info.active = false then (info, 0)
  else
    let r1 :=
      if info.in_ = ∅ then
        ({ info with comp_id := vtx, active := false, out := ∅ },
         info.out.val.map (fun d => (⟨d, vtx, true⟩ : TrimMsg)))
      else (info, 0)
    let r2 :=
      if r1.1.out = ∅ then
        ({ r1.1 with comp_id := vtx, active := false, in_ := ∅ },
         r1.1.in_.val.map (fun a2 => (⟨a2, vtx, false⟩ : TrimMsg)))
      else (r1.1, 0)
    (r2.1, r1.2 + r2.2)

/-- A trim-phase configuration: the record map, the vertices whose local
scan has not run yet, and the multiset of in-flight messages. -/
structure TrimState where
  g : Nat → VtxInfo
  pending : Finset Nat
  msgs : Multiset TrimMsg

/-- One scheduler step of the trim phase: run one pending local scan or
deliver one in-flight message.  Every interleaving the runtime can
produce (including early local deliveries) is a sequence of these
steps. -/
inductive TrimStep : TrimState → TrimState → Prop
  | scan (s : TrimState) (v : Nat) (hv : v ∈ s.pending) :
      TrimStep s ⟨Function.update s.g v (trimScan v (s.g v)).1,
        s.pending.erase v,
        s.msgs + (trimScan v (s.g v)).2⟩
  | deliver (s : TrimState) (msg : TrimMsg) (hm : msg ∈ s.msgs) :
      TrimStep s ⟨Function.update s.g msg.target
          (trimVtx msg.target (s.g msg.target) msg.sender msg.dir).1,
        s.pending,
        s.msgs.erase msg +
          (trimVtx msg.target (s.g msg.target) msg.sender msg.dir).2⟩

/-- A complete `trim_trivial` phase from entry map `g` to the quiescent
map `g'`: all local scans run and all cascades drained at the barrier. -/
def TrimRun (verts : Finset Nat) (g g' : Nat → VtxInfo) : Prop :=
  Relation.ReflTransGen TrimStep ⟨g, verts, 0⟩ ⟨g', ∅, 0⟩

/-- The sequential two-branch scan equals the elif-shaped finalization:
when the `in`-empty branch fires it clears `out`, so the following
`out`-empty branch only rewrites the same fields with the same values. -/
theorem trimScan_eq (v : Nat) (i : VtxInfo) : trimScan v i =
    if i.active = false then (i, 0)
    else if i.in_ = ∅ then
      ({ i with comp_id := v, active := false, out := ∅ },
       i.out.val.map (fun d => (⟨d, v, true⟩ : TrimMsg)))
    else if i.out = ∅ then
      ({ i with comp_id := v, active := false, in_ := ∅ },
       i.in_.val.map (fun a2 => (⟨a2, v, false⟩ : TrimMsg)))
    else (i, 0) := by
  unfold trimScan
  by_cases ha : i.active = false
  · rw [if_pos ha, if_pos ha]
  · rw [if_neg ha, if_neg ha]
    by_cases hin : i.in_ = ∅
    · simp only [if_pos hin]
      simp [hin]
    · simp only [if_neg hin]
      by_cases hout : i.out = ∅
      · simp [if_pos hout]
      · simp [if_neg hout]

/-- A record that is still active after its scan was not modified by it,
and the scan sent nothing. -/
theorem trimScan_noop (v : Nat) (i : VtxInfo)
    (h : i.active = true → (i.in_ ≠ ∅ ∧ i.out ≠ ∅)) :
    trimScan v i = (i, 0) := by
  rw [trimScan_eq]
  by_cases ha : i.active = false
  · rw [if_pos ha]
  · rw [if_neg ha]
    have := h (by revert ha; cases i.active <;> simp)
    rw [if_neg this.1, if_neg this.2]

/-- After the scan, an active record has both adjacency sides nonempty. -/
theorem trimScan_active (v : Nat) (i : VtxInfo)
    (h : (trimScan v i).1.active = true) :
    (trimScan v i).1 = i ∧ (trimScan v i).2 = 0 ∧ i.active = true ∧
    i.in_ ≠ ∅ ∧ i.out ≠ ∅ := by
  rw [trimScan_eq] at *
  by_cases ha : i.active = false
  · rw [if_pos ha] at *
    refine ⟨rfl, rfl, by simp_all, ?_, ?_⟩ <;> simp_all
  · rw [if_neg ha] at *
    by_cases hin : i.in_ = ∅
    · rw [if_pos hin] at h
      simp at h
    · rw [if_neg hin] at *
      by_cases hout : i.out = ∅
      · rw [if_pos hout] at h
        simp at h
      · rw [if_neg hout] at *
        exact ⟨rfl, rfl, by revert ha; cases i.active <;> simp, hin, hout⟩

/-- After the handler, an active record has both adjacency sides
nonempty. -/
theorem trimVtx_active (v : Nat) (i : VtxInfo) (sn : Nat) (d : Bool)
    (h : (trimVtx v i sn d).1.active = true) :
    (trimVtx v i sn d).1.in_ ≠ ∅ ∧ (trimVtx v i sn d).1.out ≠ ∅ := by
  unfold trimVtx at *
  by_cases ha : i.active = false
  · rw [if_pos ha] at *
    exact absurd h (by simp_all)
  · rw [if_neg ha] at *
    set i1 := vtxErase i sn d with hi1
    by_cases hin : i1.in_ = ∅
    · rw [if_pos hin] at h
      simp at h
    · rw [if_neg hin] at *
      by_cases hout : i1.out = ∅
      · rw [if_pos hout] at h
        simp at h
      · rw [if_neg hout] at *
        exact ⟨hin, hout⟩

/-- Invariants carry over any number of trim steps. -/
theorem trimRTG_preserve (P : TrimState → Prop)
    (hstep : ∀ b c, TrimStep b c → P b → P c) :
    ∀ s t, Relation.ReflTransGen TrimStep s t → P s → P t := by
  intro s t h
  induction h with
  | refl => exact id
  | tail hab hbc ih => exact fun hs => hstep _ _ hbc (ih hs)

/-- The post-quiescence property of a trim run: no active vertex of the
carrier has an empty adjacency side. -/
theorem trimRun_quiescent (verts : Finset Nat) (g g' : Nat → VtxInfo)
    (hrun : TrimRun verts g g') :
    ∀ v ∈ verts, (g' v).active = true → (g' v).in_ ≠ ∅ ∧ (g' v).out ≠ ∅ := by
  have hstep : ∀ b c, TrimStep b c →
      (b.pending ⊆ verts ∧ ∀ v ∈ verts, (b.g v).active = true →
        (v ∈ b.pending ∨ ((b.g v).in_ ≠ ∅ ∧ (b.g v).out ≠ ∅))) →
      (c.pending ⊆ verts ∧ ∀ v ∈ verts, (c.g v).active = true →
        (v ∈ c.pending ∨ ((c.g v).in_ ≠ ∅ ∧ (c.g v).out ≠ ∅))) := by
    intro b c hbc hP
    obtain ⟨hsub, hact⟩ := hP
    cases hbc with
    | scan v hv =>
      refine ⟨fun w hw => hsub (Finset.mem_of_mem_erase hw), ?_⟩
      intro w hwV hwA
      dsimp only at hwA ⊢
      by_cases hwv : w = v
      · subst hwv
        rw [Function.update_same] at hwA ⊢
        obtain ⟨heq, _, _, hi, ho⟩ := trimScan_active w _ hwA
        rw [heq]
        exact Or.inr ⟨hi, ho⟩
      · rw [Function.update_noteq hwv] at hwA ⊢
        rcases hact w hwV hwA with hp | hne
        · exact Or.inl (Finset.mem_erase_of_ne_of_mem hwv hp)
        · exact Or.inr hne
    | deliver msg hm =>
      refine ⟨hsub, ?_⟩
      intro w hwV hwA
      dsimp only at hwA ⊢
      by_cases hwt : w = msg.target
      · subst hwt
        rw [Function.update_same] at hwA ⊢
        exact Or.inr (trimVtx_active _ _ msg.sender msg.dir hwA)
      · rw [Function.update_noteq hwt] at hwA ⊢
        exact hact w hwV hwA
  intro v hv ha
  have := (trimRTG_preserve _ hstep _ _ hrun
    ⟨le_refl _, fun w hw _ => Or.inl hw⟩).2 v hv ha
  simpa using this

/-! ## C8: trim is idempotent -/

/-- C8: running the trim phase twice in a row equals running it once —
after a first trim reaches quiescence, any execution of a second trim
delivers no message and leaves every record unchanged. -/
theorem c8_trim_idempotent (verts : Finset Nat) (g g1 g2 : Nat → VtxInfo)
    (h1 : TrimRun verts g g1) (h2 : TrimRun verts g1 g2) : g2 = g1 := by
  have hq := trimRun_quiescent verts g g1 h1
  have hstep : ∀ b c, TrimStep b c →
      (b.g = g1 ∧ b.pending ⊆ verts ∧ b.msgs = 0) →
      (c.g = g1 ∧ c.pending ⊆ verts ∧ c.msgs = 0) := by
    intro b c hbc hP
    obtain ⟨hg, hsub, hmsgs⟩ := hP
    cases hbc with
    | scan v hv =>
      have hnoop : trimScan v (b.g v) = (b.g v, 0) := by
        rw [hg]
        exact trimScan_noop v (g1 v) (fun hA => hq v (hsub hv) hA)
      refine ⟨?_, fun w hw => hsub (Finset.mem_of_mem_erase hw), ?_⟩
      · dsimp only
        rw [hnoop, Function.update_eq_self, hg]
      · dsimp only
        rw [hnoop, hmsgs]
        rfl
    | deliver msg hm =>
      rw [hmsgs] at hm
      exact absurd hm (by simp)
  obtain ⟨hg, _, _⟩ := trimRTG_preserve _ hstep _ _ h2 ⟨rfl, le_refl _, rfl⟩
  exact hg

/-- One isolated active vertex: entry map of the C8 witness. -/
def gW : Nat → VtxInfo := fun _ => { out := ∅, in_ := ∅ }

/-- The map after the first trim run finalizes vertex 1. -/
def gW1 : Nat → VtxInfo := Function.update gW 1 (trimScan 1 (gW 1)).1

/-- The map after the second trim run rescans vertex 1. -/
def gW2 : Nat → VtxInfo := Function.update gW1 1 (trimScan 1 (gW1 1)).1

/-- The first trim run on the singleton graph, as an explicit
derivation. -/
theorem gW_run_first : TrimRun {1} gW gW1 := by
  have h := TrimStep.scan ⟨gW, {1}, 0⟩ 1 (by decide)
  have he : (⟨Function.update gW 1 (trimScan 1 (gW 1)).1, Finset.erase {1} 1,
      0 + (trimScan 1 (gW 1)).2⟩ : TrimState) =
      ⟨gW1, ∅, 0⟩ := by
    have hp : Finset.erase {1} 1 = (∅ : Finset Nat) := by decide
    have hm : (0 + (trimScan 1 (gW 1)).2) = 0 := by decide
    rw [hp, hm]
    rfl
  exact Relation.ReflTransGen.single (he ▸ h)

/-- The second trim run on the singleton graph. -/
theorem gW_run_second : TrimRun {1} gW1 gW2 := by
  have h := TrimStep.scan ⟨gW1, {1}, 0⟩ 1 (by decide)
  have he : (⟨Function.update gW1 1 (trimScan 1 (gW1 1)).1, Finset.erase {1} 1,
      0 + (trimScan 1 (gW1 1)).2⟩ : TrimState) =
      ⟨gW2, ∅, 0⟩ := by
    have hp : Finset.erase {1} 1 = (∅ : Finset Nat) := by decide
    have hm : (0 + (trimScan 1 (gW1 1)).2) = 0 := by decide
    rw [hp, hm]
    rfl
  exact Relation.ReflTransGen.single (he ▸ h)

/-- Witness for C8: on the singleton graph, the first trim finalizes the
vertex and a second trim run reproduces the same map. -/
theorem c8_trim_idempotent_witness :
    TrimRun {1} gW gW1 ∧ TrimRun {1} gW1 gW2 ∧ gW2 = gW1 :=
  ⟨gW_run_first, gW_run_second,
    c8_trim_idempotent {1} gW gW1 gW2 gW_run_first gW_run_second⟩

/-! ## C4: what deactivation guarantees -/

theorem trimScan_sub (v : Nat) (i : VtxInfo) :
    (trimScan v i).1.out ⊆ i.out ∧ (trimScan v i).1.in_ ⊆ i.in_ := by
  rw [trimScan_eq]
  split_ifs <;>
    simp [Finset.empty_subset, Finset.Subset.refl]

theorem trimScan_msg_targets (v : Nat) (i : VtxInfo) :
    ∀ m ∈ (trimScan v i).2, m.target ∈ i.out ∨ m.target ∈ i.in_ := by
  rw [trimScan_eq]
  split_ifs <;> intro m hm
  · simp at hm
  · obtain ⟨d, hd, rfl⟩ := Multiset.mem_map.mp hm
    exact Or.inl hd
  · obtain ⟨d, hd, rfl⟩ := Multiset.mem_map.mp hm
    exact Or.inr hd
  · simp at hm

theorem trimScan_comp (v : Nat) (i : VtxInfo)
    (h : (trimScan v i).1.active = false) (ha : i.active = true) :
    (trimScan v i).1.comp_id = v := by
  rw [trimScan_eq] at *
  rw [if_neg (by simp [ha])] at *
  by_cases hin : i.in_ = ∅
  · rw [if_pos hin]
  · rw [if_neg hin] at *
    by_cases hout : i.out = ∅
    · rw [if_pos hout]
    · rw [if_neg hout] at h
      exact absurd h (by simp [ha])

theorem trimVtx_inactive (v : Nat) (i : VtxInfo) (sn : Nat) (d : Bool)
    (h : i.active = false) : trimVtx v i sn d = (i, 0) := by
  unfold trimVtx
  rw [if_pos h]

theorem trimScan_inactive (v : Nat) (i : VtxInfo)
    (h : i.active = false) : trimScan v i = (i, 0) := by
  rw [trimScan_eq, if_pos h]

theorem trimVtx_sub (v : Nat) (i : VtxInfo) (sn : Nat) (d : Bool) :
    (trimVtx v i sn d).1.out ⊆ i.out ∧ (trimVtx v i sn d).1.in_ ⊆ i.in_ := by
  unfold trimVtx
  by_cases ha : i.active = false
  · rw [if_pos ha]
    exact ⟨Finset.Subset.refl _, Finset.Subset.refl _⟩
  · rw [if_neg ha]
    set i1 := vtxErase i sn d with hi1
    have hsub : i1.out ⊆ i.out ∧ i1.in_ ⊆ i.in_ := by
      rw [hi1]
      unfold vtxErase
      split_ifs
      · exact ⟨Finset.Subset.refl _, Finset.erase_subset _ _⟩
      · exact ⟨Finset.erase_subset _ _, Finset.Subset.refl _⟩
    by_cases hin : i1.in_ = ∅
    · rw [if_pos hin]
      exact ⟨Finset.empty_subset _, hsub.2⟩
    · rw [if_neg hin]
      by_cases hout : i1.out = ∅
      · rw [if_pos hout]
        exact ⟨hsub.1, Finset.empty_subset _⟩
      · rw [if_neg hout]
        exact hsub

theorem trimVtx_msg_targets (v : Nat) (i : VtxInfo) (sn : Nat) (d : Bool) :
    ∀ m ∈ (trimVtx v i sn d).2, m.target ∈ i.out ∨ m.target ∈ i.in_ := by
  unfold trimVtx
  by_cases ha : i.active = false
  · rw [if_pos ha]
    intro m hm
    simp at hm
  · rw [if_neg ha]
    set i1 := vtxErase i sn d with hi1
    have hsub : i1.out ⊆ i.out ∧ i1.in_ ⊆ i.in_ := by
      rw [hi1]
      unfold vtxErase
      split_ifs
      · exact ⟨Finset.Subset.refl _, Finset.erase_subset _ _⟩
      · exact ⟨Finset.erase_subset _ _, Finset.Subset.refl _⟩
    by_cases hin : i1.in_ = ∅
    · rw [if_pos hin]
      intro m hm
      obtain ⟨x, hx, rfl⟩ := Multiset.mem_map.mp hm
      exact Or.inl (hsub.1 hx)
    · rw [if_neg hin]
      by_cases hout : i1.out = ∅
      · rw [if_pos hout]
        intro m hm
        obtain ⟨x, hx, rfl⟩ := Multiset.mem_map.mp hm
        exact Or.inr (hsub.2 hx)
      · rw [if_neg hout]
        intro m hm
        simp at hm

theorem trimVtx_comp (v : Nat) (i : VtxInfo) (sn : Nat) (d : Bool)
    (h : (trimVtx v i sn d).1.active = false) (ha : i.active = true) :
    (trimVtx v i sn d).1.comp_id = v := by
  unfold trimVtx at *
  rw [if_neg (by simp [ha])] at *
  set i1 := vtxErase i sn d with hi1
  by_cases hin : i1.in_ = ∅
  · rw [if_pos hin]
  · rw [if_neg hin] at *
    by_cases hout : i1.out = ∅
    · rw [if_pos hout]
    · rw [if_neg hout] at h
      have : i1.active = true := by
        rw [hi1]
        unfold vtxErase
        split_ifs <;> exact ha
      simp [this] at h

/-- C4 counterexample state: a 2-cycle, both vertices both-marked by the
marking phase. -/
def sC4 : GState :=
  ⟨{1, 2}, fun v =>
    if v = 1 then { out := {2}, in_ := {2}, mark_pred := true, mark_desc := true,
                    my_marker := 1 }
    else { out := {1}, in_ := {1}, mark_pred := true, mark_desc := true,
           my_marker := 1 }⟩

/-- C4 counterexample: the freeze scan deactivates vertex 1 of the
2-cycle, but at the end of the enclosing barrier vertex 2's `in` and
`out` sets still contain vertex 1. -/
theorem c4_counterexample :
    (sC4.info 1).active = true ∧
    ((prepUnterminated sC4).1.info 1).active = false ∧
    1 ∈ ((prepUnterminated sC4).1.info 2).in_ ∧
    1 ∈ ((prepUnterminated sC4).1.info 2).out := by
  refine ⟨?_, ?_, ?_, ?_⟩ <;> decide

/-- C4 amended: whenever trim or freeze sets a vertex inactive, its
`comp_id` is no longer ⊥ by the end of the containing barrier (trim
writes the vertex's own 32-bit id, freeze writes the 32-bit `my_marker`,
and neither equals the 64-bit ⊥); the adjacency-pruning half of the claim
does not hold — the freeze step deactivates vertices without touching the
edge sets that reference them. -/
theorem c4_deactivation_amended (verts : Finset Nat) (g g' : Nat → VtxInfo)
    (hverts : ∀ v ∈ verts, v < U32)
    (hsets : ∀ v u, (u ∈ (g v).out ∨ u ∈ (g v).in_) → u < U32)
    (hprev : ∀ v, (g v).active = false → (g v).comp_id ≠ botU64)
    (hrun : TrimRun verts g g') :
    (∀ v, (g' v).active = false → (g' v).comp_id ≠ botU64) ∧
    (∀ s : GState, (∀ v, (s.info v).my_marker < U32) →
      (∀ v, (s.info v).active = false → (s.info v).comp_id ≠ botU64) →
      ∀ v, ((prepUnterminated s).1.info v).active = false →
        ((prepUnterminated s).1.info v).comp_id ≠ botU64) := by
  constructor
  · have hstep : ∀ b c, TrimStep b c →
        ((b.pending ⊆ verts) ∧
         (∀ v u, (u ∈ (b.g v).out ∨ u ∈ (b.g v).in_) → u < U32) ∧
         (∀ m ∈ b.msgs, m.target < U32) ∧
         (∀ v, (b.g v).active = false → (b.g v).comp_id ≠ botU64)) →
        ((c.pending ⊆ verts) ∧
         (∀ v u, (u ∈ (c.g v).out ∨ u ∈ (c.g v).in_) → u < U32) ∧
         (∀ m ∈ c.msgs, m.target < U32) ∧
         (∀ v, (c.g v).active = false → (c.g v).comp_id ≠ botU64)) := by
      intro b c hbc hP
      obtain ⟨hsub, hSB, hMT, hCI⟩ := hP
      have hub : U32 = 2 ^ 32 := rfl
      have hbot : botU64 = 2 ^ 64 - 1 := rfl
      cases hbc with
      | scan v hv =>
        refine ⟨fun w hw => hsub (Finset.mem_of_mem_erase hw), ?_, ?_, ?_⟩
        · intro w u hu
          dsimp only at hu
          by_cases hwv : w = v
          · subst hwv
            rw [Function.update_same] at hu
            obtain ⟨ho, hi⟩ := trimScan_sub w (b.g w)
            refine hSB w u ?_
            rcases hu with h | h
            · exact Or.inl (ho h)
            · exact Or.inr (hi h)
          · rw [Function.update_noteq hwv] at hu
            exact hSB w u hu
        · intro m hm
          dsimp only at hm
          rcases Multiset.mem_add.mp hm with h | h
          · exact hMT m h
          · rcases trimScan_msg_targets v (b.g v) m h with h' | h' <;>
              exact hSB v m.target (by tauto)
        · intro w hw
          dsimp only at hw ⊢
          by_cases hwv : w = v
          · subst hwv
            rw [Function.update_same] at hw ⊢
            by_cases ha : (b.g w).active = false
            · rw [trimScan_inactive w _ ha] at hw ⊢
              exact hCI w ha
            · have ha' : (b.g w).active = true := by
                revert ha
                cases (b.g w).active <;> simp
              rw [trimScan_comp w _ hw ha']
              have := hverts w (hsub hv)
              omega
          · rw [Function.update_noteq hwv] at hw ⊢
            exact hCI w hw
      | deliver msg hm =>
        refine ⟨hsub, ?_, ?_, ?_⟩
        · intro w u hu
          dsimp only at hu
          by_cases hwt : w = msg.target
          · subst hwt
            rw [Function.update_same] at hu
            obtain ⟨ho, hi⟩ := trimVtx_sub msg.target (b.g msg.target)
              msg.sender msg.dir
            refine hSB msg.target u ?_
            rcases hu with h | h
            · exact Or.inl (ho h)
            · exact Or.inr (hi h)
          · rw [Function.update_noteq hwt] at hu
            exact hSB w u hu
        · intro m hm'
          dsimp only at hm'
          rcases Multiset.mem_add.mp hm' with h | h
          · exact hMT m (Multiset.mem_of_mem_erase h)
          · rcases trimVtx_msg_targets msg.target (b.g msg.target)
              msg.sender msg.dir m h with h' | h' <;>
              exact hSB msg.target m.target (by tauto)
        · intro w hw
          dsimp only at hw ⊢
          by_cases hwt : w = msg.target
          · subst hwt
            rw [Function.update_same] at hw ⊢
            by_cases ha : (b.g msg.target).active = false
            · rw [trimVtx_inactive _ _ _ _ ha] at hw ⊢
              exact hCI _ ha
            · have ha' : (b.g msg.target).active = true := by
                revert ha
                cases (b.g msg.target).active <;> simp
              rw [trimVtx_comp _ _ _ _ hw ha']
              have := hMT msg hm
              omega
          · rw [Function.update_noteq hwt] at hw ⊢
            exact hCI w hw
    exact (trimRTG_preserve _ hstep _ _ hrun
      ⟨le_refl _, hsets, by simp, hprev⟩).2.2.2
  · intro s hmk hpr v hv
    by_cases hvV : v ∈ s.verts
    · rw [prep_info_eq s v hvV] at hv ⊢
      unfold freezeVtx at hv ⊢
      by_cases ha : (s.info v).active = false
      · rw [if_pos ha] at hv ⊢
        exact hpr v ha
      · rw [if_neg ha] at hv ⊢
        by_cases hmark : (s.info v).mark_pred = true ∧ (s.info v).mark_desc = true
        · rw [if_pos hmark]
          have := hmk v
          have hub : U32 = 2 ^ 32 := rfl
          have hbot : botU64 = 2 ^ 64 - 1 := rfl
          simp only []
          omega
        · rw [if_neg hmark] at hv
          simp at hv
          exact absurd hv (by revert ha; cases (s.info v).active <;> simp)
    · unfold prepUnterminated at hv ⊢
      dsimp only at hv ⊢
      rw [if_neg hvV] at hv ⊢
      exact hpr v hv

/-- Witness for C4 amended: the singleton-graph trim run deactivates
vertex 1 and indeed leaves `comp_id ≠ ⊥`. -/
theorem c4_deactivation_amended_witness :
    (gW1 1).active = false ∧ (gW1 1).comp_id ≠ botU64 := by
  have h := (c4_deactivation_amended {1} gW gW1
    (by intro v hv; simp only [Finset.mem_singleton] at hv; subst hv; decide)
    (by intro v u hu; simp [gW] at hu)
    (by intro v hva; simp [gW] at hva)
    gW_run_first).1
  exact ⟨by decide, h 1 (by decide)⟩

/-! ## Edge symmetry across the trim phase -/

/-- Edge symmetry of a record map: `v ∈ u.out ⇔ u ∈ v.in`. -/
def SymG (g : Nat → VtxInfo) : Prop :=
  ∀ u v, v ∈ (g u).out ↔ u ∈ (g v).in_

/-- Every inactive vertex has both adjacency sets empty (true of every
vertex trim itself deactivates; freeze violates it). -/
def InactiveEmptyG (g : Nat → VtxInfo) : Prop :=
  ∀ v, (g v).active = false → (g v).out = ∅ ∧ (g v).in_ = ∅

/-- The in-flight symmetry invariant of the trim phase: inactive vertices
are bare; every asymmetric pair is covered by a pending erase message
aimed at the surviving side; and no pending erase message targets a
vertex its deactivated sender still references. -/
def TrimSymInv (s : TrimState) : Prop :=
  InactiveEmptyG s.g ∧
  (∀ x y, x ∈ (s.g y).in_ → y ∉ (s.g x).out →
    (⟨y, x, true⟩ : TrimMsg) ∈ s.msgs) ∧
  (∀ x y, x ∈ (s.g y).out → y ∉ (s.g x).in_ →
    (⟨y, x, false⟩ : TrimMsg) ∈ s.msgs) ∧
  (∀ m ∈ s.msgs, (m.dir = true → m.target ∉ (s.g m.sender).out) ∧
    (m.dir = false → m.target ∉ (s.g m.sender).in_))

/-- Case shape of the scan body. -/
theorem trimScan_shape (v : Nat) (i : VtxInfo) :
    (trimScan v i = (i, 0) ∧ (i.active = true → i.in_ ≠ ∅ ∧ i.out ≠ ∅)) ∨
    (i.active = true ∧ i.in_ = ∅ ∧
      trimScan v i = ({ i with comp_id := v, active := false, out := ∅ },
        i.out.val.map (fun t => ⟨t, v, true⟩))) ∨
    (i.active = true ∧ i.in_ ≠ ∅ ∧ i.out = ∅ ∧
      trimScan v i = ({ i with comp_id := v, active := false, in_ := ∅ },
        i.in_.val.map (fun t => ⟨t, v, false⟩))) := by
  rw [trimScan_eq]
  by_cases ha : i.active = false
  · rw [if_pos ha]
    exact Or.inl ⟨rfl, fun h => absurd h (by simp [ha])⟩
  · rw [if_neg ha]
    have ha' : i.active = true := by revert ha; cases i.active <;> simp
    by_cases hin : i.in_ = ∅
    · rw [if_pos hin]
      exact Or.inr (Or.inl ⟨ha', hin, rfl⟩)
    · rw [if_neg hin]
      by_cases hout : i.out = ∅
      · rw [if_pos hout]
        exact Or.inr (Or.inr ⟨ha', hin, hout, rfl⟩)
      · rw [if_neg hout]
        exact Or.inl ⟨rfl, fun _ => ⟨hin, hout⟩⟩

/-- Case shape of the handler body. -/
theorem trimVtx_shape (v : Nat) (i : VtxInfo) (sn : Nat) (d : Bool) :
    (i.active = false ∧ trimVtx v i sn d = (i, 0)) ∨
    (i.active = true ∧
      ((trimVtx v i sn d).1.active = true ∧
        (trimVtx v i sn d).1 = vtxErase i sn d ∧ (trimVtx v i sn d).2 = 0 ∧
        (vtxErase i sn d).in_ ≠ ∅ ∧ (vtxErase i sn d).out ≠ ∅ ∨
       (vtxErase i sn d).in_ = ∅ ∧
        trimVtx v i sn d =
          ({ vtxErase i sn d with comp_id := v, active := false, out := ∅ },
           (vtxErase i sn d).out.val.map (fun t => ⟨t, v, true⟩)) ∨
       (vtxErase i sn d).in_ ≠ ∅ ∧ (vtxErase i sn d).out = ∅ ∧
        trimVtx v i sn d =
          ({ vtxErase i sn d with comp_id := v, active := false, in_ := ∅ },
           (vtxErase i sn d).in_.val.map (fun t => ⟨t, v, false⟩)))) := by
  unfold trimVtx
  by_cases ha : i.active = false
  · rw [if_pos ha]
    exact Or.inl ⟨ha, rfl⟩
  · rw [if_neg ha]
    have ha' : i.active = true := by revert ha; cases i.active <;> simp
    refine Or.inr ⟨ha', ?_⟩
    by_cases hin : (vtxErase i sn d).in_ = ∅
    · rw [if_pos hin]
      exact Or.inr (Or.inl ⟨hin, rfl⟩)
    · rw [if_neg hin]
      by_cases hout : (vtxErase i sn d).out = ∅
      · rw [if_pos hout]
        exact Or.inr (Or.inr ⟨hin, hout, rfl⟩)
      · rw [if_neg hout]
        refine Or.inl ⟨?_, rfl, rfl, hin, hout⟩
        unfold vtxErase
        split_ifs <;> exact ha'

theorem mem_erase_of_ne_msg {m m' : TrimMsg} {s : Multiset TrimMsg}
    (h : m' ∈ s) (hne : m' ≠ m) : m' ∈ s.erase m :=
  (Multiset.mem_erase_of_ne hne).mpr h

/-- One trim step preserves the in-flight symmetry invariant. -/
theorem trimSymInv_step : ∀ b c, TrimStep b c → TrimSymInv b → TrimSymInv c := by
  intro b c hbc hP
  obtain ⟨hIE, hDI, hDO, hMS⟩ := hP
  cases hbc with
  | scan v hv =>
    rcases trimScan_shape v (b.g v) with ⟨heq, _⟩ | ⟨ha, hin, heq⟩ |
      ⟨ha, hin, hout, heq⟩
    · -- no-op scan
      refine ⟨?_, ?_, ?_, ?_⟩ <;> dsimp only <;> rw [heq] <;>
        simp only [Function.update_eq_self, add_zero]
      · exact hIE
      · exact hDI
      · exact hDO
      · exact hMS
    · -- in-empty finalization
      have hgv : (trimScan v (b.g v)).1 =
          { b.g v with comp_id := v, active := false, out := ∅ } := by rw [heq]
      have hmv : (trimScan v (b.g v)).2 =
          (b.g v).out.val.map (fun t => ⟨t, v, true⟩) := by rw [heq]
      refine ⟨?_, ?_, ?_, ?_⟩ <;> dsimp only <;> simp only [hgv, hmv]
      · intro w hw
        by_cases hwv : w = v
        · subst hwv
          rw [Function.update_same] at *
          exact ⟨rfl, hin⟩
        · rw [Function.update_noteq hwv] at *
          exact hIE w hw
      · intro x y hx hy
        by_cases hyv : y = v
        · subst hyv
          rw [Function.update_same] at hx
          exact absurd (hin ▸ hx) (by simp)
        · rw [Function.update_noteq hyv] at hx
          by_cases hxv : x = v
          · subst hxv
            by_cases hyo : y ∈ (b.g x).out
            · exact Multiset.mem_add.mpr (Or.inr (Multiset.mem_map_of_mem _ hyo))
            · exact Multiset.mem_add.mpr (Or.inl (hDI x y hx hyo))
          · rw [Function.update_noteq hxv] at hy
            exact Multiset.mem_add.mpr (Or.inl (hDI x y hx hy))
      · intro x y hx hy
        by_cases hyv : y = v
        · subst hyv
          rw [Function.update_same] at hx
          exact absurd hx (by simp)
        · rw [Function.update_noteq hyv] at hx
          have hold : y ∉ (b.g x).in_ → (⟨y, x, false⟩ : TrimMsg) ∈ b.msgs :=
            hDO x y hx
          by_cases hxv : x = v
          · subst hxv
            exact Multiset.mem_add.mpr (Or.inl (hold (by rw [hin]; simp)))
          · rw [Function.update_noteq hxv] at hy
            exact Multiset.mem_add.mpr (Or.inl (hold hy))
      · intro m hm
        rcases Multiset.mem_add.mp hm with hmo | hmn
        · refine ⟨fun hd => ?_, fun hd => ?_⟩
          · by_cases hsv : m.sender = v
            · rw [hsv, Function.update_same]
              simp
            · rw [Function.update_noteq hsv]
              exact (hMS m hmo).1 hd
          · by_cases hsv : m.sender = v
            · rw [hsv, Function.update_same]
              intro hmem
              dsimp only at hmem
              rw [hin] at hmem
              simp at hmem
            · rw [Function.update_noteq hsv]
              exact (hMS m hmo).2 hd
        · obtain ⟨t, ht, rfl⟩ := Multiset.mem_map.mp hmn
          refine ⟨fun hd => ?_, fun hd => ?_⟩
          · rw [Function.update_same]
            simp
          · simp at hd
    · -- out-empty finalization
      have hgv : (trimScan v (b.g v)).1 =
          { b.g v with comp_id := v, active := false, in_ := ∅ } := by rw [heq]
      have hmv : (trimScan v (b.g v)).2 =
          (b.g v).in_.val.map (fun t => ⟨t, v, false⟩) := by rw [heq]
      refine ⟨?_, ?_, ?_, ?_⟩ <;> dsimp only <;> simp only [hgv, hmv]
      · intro w hw
        by_cases hwv : w = v
        · subst hwv
          rw [Function.update_same] at *
          exact ⟨hout, rfl⟩
        · rw [Function.update_noteq hwv] at *
          exact hIE w hw
      · intro x y hx hy
        by_cases hyv : y = v
        · subst hyv
          rw [Function.update_same] at hx
          exact absurd hx (by simp)
        · rw [Function.update_noteq hyv] at hx
          have hold : y ∉ (b.g x).out → (⟨y, x, true⟩ : TrimMsg) ∈ b.msgs :=
            hDI x y hx
          by_cases hxv : x = v
          · subst hxv
            exact Multiset.mem_add.mpr (Or.inl (hold (by rw [hout]; simp)))
          · rw [Function.update_noteq hxv] at hy
            exact Multiset.mem_add.mpr (Or.inl (hold hy))
      · intro x y hx hy
        by_cases hyv : y = v
        · subst hyv
          rw [Function.update_same] at hx
          exact absurd (hout ▸ hx) (by simp)
        · rw [Function.update_noteq hyv] at hx
          by_cases hxv : x = v
          · subst hxv
            by_cases hyi : y ∈ (b.g x).in_
            · exact Multiset.mem_add.mpr (Or.inr (Multiset.mem_map_of_mem _ hyi))
            · exact Multiset.mem_add.mpr (Or.inl (hDO x y hx hyi))
          · rw [Function.update_noteq hxv] at hy
            exact Multiset.mem_add.mpr (Or.inl (hDO x y hx hy))
      · intro m hm
        rcases Multiset.mem_add.mp hm with hmo | hmn
        · refine ⟨fun hd => ?_, fun hd => ?_⟩
          · by_cases hsv : m.sender = v
            · rw [hsv, Function.update_same]
              intro hmem
              dsimp only at hmem
              rw [hout] at hmem
              simp at hmem
            · rw [Function.update_noteq hsv]
              exact (hMS m hmo).1 hd
          · by_cases hsv : m.sender = v
            · rw [hsv, Function.update_same]
              simp
            · rw [Function.update_noteq hsv]
              exact (hMS m hmo).2 hd
        · obtain ⟨t, ht, rfl⟩ := Multiset.mem_map.mp hmn
          refine ⟨fun hd => ?_, fun hd => ?_⟩
          · simp at hd
          · rw [Function.update_same]
            simp
  | deliver msg hm =>
    obtain ⟨tgt, sn, d⟩ := msg
    rcases trimVtx_shape tgt (b.g tgt) sn d with ⟨ha, heq⟩ | ⟨ha, hsh⟩
    · -- target inactive: message dropped
      have hbare := hIE tgt ha
      have hg1 : (trimVtx tgt (b.g tgt) sn d).1 = b.g tgt := by rw [heq]
      have hg2 : (trimVtx tgt (b.g tgt) sn d).2 = 0 := by rw [heq]
      refine ⟨?_, ?_, ?_, ?_⟩ <;> dsimp only <;>
        simp only [hg1, hg2, Function.update_eq_self, add_zero]
      · exact hIE
      · intro x y hx hy
        refine mem_erase_of_ne_msg (hDI x y hx hy) ?_
        intro hcon
        rw [TrimMsg.mk.injEq] at hcon
        rw [hcon.1] at hx
        rw [hbare.2] at hx
        simp at hx
      · intro x y hx hy
        refine mem_erase_of_ne_msg (hDO x y hx hy) ?_
        intro hcon
        rw [TrimMsg.mk.injEq] at hcon
        rw [hcon.1] at hx
        rw [hbare.1] at hx
        simp at hx
      · intro m hm'
        exact hMS m (Multiset.mem_of_mem_erase hm')
    · -- target active
      cases d with
      | true =>
        have hsnd : tgt ∉ (b.g sn).out := (hMS _ hm).1 rfl
        have hi1in : (vtxErase (b.g tgt) sn true).in_ = (b.g tgt).in_.erase sn := rfl
        have hi1out : (vtxErase (b.g tgt) sn true).out = (b.g tgt).out := rfl
        rcases hsh with ⟨hact1, hres1, hres2, hin1, hout1⟩ | ⟨hin1, heq⟩ |
          ⟨hin1, hout1, heq⟩
        · -- erase only, vertex stays active
          have hOutEq : ∀ w,
              (Function.update b.g tgt (trimVtx tgt (b.g tgt) sn true).1 w).out =
                (b.g w).out := by
            intro w
            by_cases hw : w = tgt
            · subst hw
              rw [Function.update_same, hres1, hi1out]
            · rw [Function.update_noteq hw]
          have hInEq : ∀ w, w ≠ tgt →
              (Function.update b.g tgt (trimVtx tgt (b.g tgt) sn true).1 w).in_ =
                (b.g w).in_ := by
            intro w hw
            rw [Function.update_noteq hw]
          have hInT :
              (Function.update b.g tgt (trimVtx tgt (b.g tgt) sn true).1 tgt).in_ =
                (b.g tgt).in_.erase sn := by
            rw [Function.update_same, hres1, hi1in]
          refine ⟨?_, ?_, ?_, ?_⟩ <;> dsimp only
          · intro w hw
            by_cases hwt : w = tgt
            · subst hwt
              rw [Function.update_same, hres1] at hw
              have hva : (vtxErase (b.g w) sn true).active = true := by
                unfold vtxErase
                simpa using ha
              rw [hva] at hw
              simp at hw
            · rw [Function.update_noteq hwt] at *
              exact hIE w hw
          · intro x y hx hy
            rw [hOutEq] at hy
            rw [hres2, add_zero]
            by_cases hyt : y = tgt
            · subst hyt
              rw [hInT] at hx
              obtain ⟨hxs, hxm⟩ := Finset.mem_erase.mp hx
              refine mem_erase_of_ne_msg (hDI x y hxm hy) ?_
              intro hcon
              rw [TrimMsg.mk.injEq] at hcon
              exact hxs hcon.2.1
            · rw [hInEq y hyt] at hx
              refine mem_erase_of_ne_msg (hDI x y hx hy) ?_
              intro hcon
              rw [TrimMsg.mk.injEq] at hcon
              exact hyt hcon.1
          · intro x y hx hy
            rw [hOutEq] at hx
            rw [hres2, add_zero]
            by_cases hxt : x = tgt
            · subst hxt
              rw [hInT] at hy
              by_cases hys : y = sn
              · subst hys
                exact absurd hx hsnd
              · have hy' : y ∉ (b.g x).in_ := by
                  intro hmem
                  exact hy (Finset.mem_erase.mpr ⟨hys, hmem⟩)
                refine mem_erase_of_ne_msg (hDO x y hx hy') ?_
                intro hcon
                rw [TrimMsg.mk.injEq] at hcon
                simp at hcon
            · rw [hInEq x hxt] at hy
              refine mem_erase_of_ne_msg (hDO x y hx hy) ?_
              intro hcon
              rw [TrimMsg.mk.injEq] at hcon
              simp at hcon
          · intro m hm'
            rw [hres2, add_zero] at hm'
            have hmo := Multiset.mem_of_mem_erase hm'
            refine ⟨fun hd => ?_, fun hd => ?_⟩
            · rw [hOutEq]
              exact (hMS m hmo).1 hd
            · by_cases hst : m.sender = tgt
              · rw [hst, hInT]
                intro hmem
                exact (hst ▸ (hMS m hmo).2 hd) (Finset.mem_of_mem_erase hmem)
              · rw [hInEq _ hst]
                exact (hMS m hmo).2 hd
        · -- cascade: in side emptied, vertex finalized forward
          have hgr : (trimVtx tgt (b.g tgt) sn true).1 =
              { vtxErase (b.g tgt) sn true with
                  comp_id := tgt, active := false, out := ∅ } := by rw [heq]
          have hgm : (trimVtx tgt (b.g tgt) sn true).2 =
              (vtxErase (b.g tgt) sn true).out.val.map (fun t => ⟨t, tgt, true⟩) := by
            rw [heq]
          have hsub : ∀ y, y ∈ (b.g tgt).in_ → y = sn := by
            intro y hy
            by_contra hne
            have : y ∈ (vtxErase (b.g tgt) sn true).in_ := by
              rw [hi1in]
              exact Finset.mem_erase.mpr ⟨hne, hy⟩
            rw [hin1] at this
            simp at this
          refine ⟨?_, ?_, ?_, ?_⟩ <;> dsimp only <;> simp only [hgr, hgm]
          · intro w hw
            by_cases hwt : w = tgt
            · subst hwt
              rw [Function.update_same]
              exact ⟨rfl, hin1⟩
            · rw [Function.update_noteq hwt] at *
              exact hIE w hw
          · intro x y hx hy
            by_cases hyt : y = tgt
            · subst hyt
              rw [Function.update_same] at hx
              dsimp only at hx
              rw [hin1] at hx
              simp at hx
            · rw [Function.update_noteq hyt] at hx
              by_cases hxt : x = tgt
              · subst hxt
                by_cases hyo : y ∈ (vtxErase (b.g x) sn true).out
                · exact Multiset.mem_add.mpr (Or.inr (Multiset.mem_map_of_mem _ hyo))
                · rw [hi1out] at hyo
                  refine Multiset.mem_add.mpr (Or.inl
                    (mem_erase_of_ne_msg (hDI x y hx hyo) ?_))
                  intro hcon
                  rw [TrimMsg.mk.injEq] at hcon
                  exact hyt hcon.1
              · rw [Function.update_noteq hxt] at hy
                refine Multiset.mem_add.mpr (Or.inl
                  (mem_erase_of_ne_msg (hDI x y hx hy) ?_))
                intro hcon
                rw [TrimMsg.mk.injEq] at hcon
                exact hyt hcon.1
          · intro x y hx hy
            by_cases hyt : y = tgt
            · subst hyt
              rw [Function.update_same] at hx
              dsimp only at hx
              simp at hx
            · rw [Function.update_noteq hyt] at hx
              by_cases hxt : x = tgt
              · subst hxt
                by_cases hys : y = sn
                · subst hys
                  exact absurd hx hsnd
                · have hy' : y ∉ (b.g x).in_ := fun hmem => hys (hsub y hmem)
                  refine Multiset.mem_add.mpr (Or.inl
                    (mem_erase_of_ne_msg (hDO x y hx hy') ?_))
                  intro hcon
                  rw [TrimMsg.mk.injEq] at hcon
                  simp at hcon
              · rw [Function.update_noteq hxt] at hy
                refine Multiset.mem_add.mpr (Or.inl
                  (mem_erase_of_ne_msg (hDO x y hx hy) ?_))
                intro hcon
                rw [TrimMsg.mk.injEq] at hcon
                simp at hcon
          · intro m hm'
            rcases Multiset.mem_add.mp hm' with hmo | hmn
            · have hmo' := Multiset.mem_of_mem_erase hmo
              refine ⟨fun hd => ?_, fun hd => ?_⟩
              · by_cases hst : m.sender = tgt
                · rw [hst, Function.update_same]
                  simp
                · rw [Function.update_noteq hst]
                  exact (hMS m hmo').1 hd
              · by_cases hst : m.sender = tgt
                · rw [hst, Function.update_same]
                  intro hmem
                  dsimp only at hmem
                  rw [hin1] at hmem
                  simp at hmem
                · rw [Function.update_noteq hst]
                  exact (hMS m hmo').2 hd
            · obtain ⟨t, ht, rfl⟩ := Multiset.mem_map.mp hmn
              refine ⟨fun hd => ?_, fun hd => ?_⟩
              · rw [Function.update_same]
                simp
              · simp at hd
        · -- cascade: out side empty, vertex finalized backward
          have hgr : (trimVtx tgt (b.g tgt) sn true).1 =
              { vtxErase (b.g tgt) sn true with
                  comp_id := tgt, active := false, in_ := ∅ } := by rw [heq]
          have hgm : (trimVtx tgt (b.g tgt) sn true).2 =
              (vtxErase (b.g tgt) sn true).in_.val.map (fun t => ⟨t, tgt, false⟩) := by
            rw [heq]
          have houtT : (b.g tgt).out = ∅ := by rw [← hi1out, hout1]
          refine ⟨?_, ?_, ?_, ?_⟩ <;> dsimp only <;> simp only [hgr, hgm]
          · intro w hw
            by_cases hwt : w = tgt
            · subst hwt
              rw [Function.update_same]
              exact ⟨hout1, rfl⟩
            · rw [Function.update_noteq hwt] at *
              exact hIE w hw
          · intro x y hx hy
            by_cases hyt : y = tgt
            · subst hyt
              rw [Function.update_same] at hx
              dsimp only at hx
              simp at hx
            · rw [Function.update_noteq hyt] at hx
              have hyo' : y ∉ (b.g x).out → (⟨y, x, true⟩ : TrimMsg) ∈
                  b.msgs.erase ⟨tgt, sn, true⟩ +
                    (vtxErase (b.g tgt) sn true).in_.val.map
                      (fun t => ⟨t, tgt, false⟩) := by
                intro hyo
                refine Multiset.mem_add.mpr (Or.inl
                  (mem_erase_of_ne_msg (hDI x y hx hyo) ?_))
                intro hcon
                rw [TrimMsg.mk.injEq] at hcon
                exact hyt hcon.1
              by_cases hxt : x = tgt
              · subst hxt
                exact hyo' (by rw [houtT]; simp)
              · rw [Function.update_noteq hxt] at hy
                exact hyo' hy
          · intro x y hx hy
            by_cases hyt : y = tgt
            · subst hyt
              rw [Function.update_same] at hx
              dsimp only at hx
              rw [hout1] at hx
              simp at hx
            · rw [Function.update_noteq hyt] at hx
              by_cases hxt : x = tgt
              · subst hxt
                by_cases hyi : y ∈ (vtxErase (b.g x) sn true).in_
                · exact Multiset.mem_add.mpr (Or.inr (Multiset.mem_map_of_mem _ hyi))
                · rw [hi1in] at hyi
                  by_cases hys : y = sn
                  · subst hys
                    exact absurd hx hsnd
                  · have hy' : y ∉ (b.g x).in_ := by
                      intro hmem
                      exact hyi (Finset.mem_erase.mpr ⟨hys, hmem⟩)
                    refine Multiset.mem_add.mpr (Or.inl
                      (mem_erase_of_ne_msg (hDO x y hx hy') ?_))
                    intro hcon
                    rw [TrimMsg.mk.injEq] at hcon
                    simp at hcon
              · rw [Function.update_noteq hxt] at hy
                refine Multiset.mem_add.mpr (Or.inl
                  (mem_erase_of_ne_msg (hDO x y hx hy) ?_))
                intro hcon
                rw [TrimMsg.mk.injEq] at hcon
                simp at hcon
          · intro m hm'
            rcases Multiset.mem_add.mp hm' with hmo | hmn
            · have hmo' := Multiset.mem_of_mem_erase hmo
              refine ⟨fun hd => ?_, fun hd => ?_⟩
              · by_cases hst : m.sender = tgt
                · rw [hst, Function.update_same]
                  intro hmem
                  dsimp only at hmem
                  rw [hout1] at hmem
                  simp at hmem
                · rw [Function.update_noteq hst]
                  exact (hMS m hmo').1 hd
              · by_cases hst : m.sender = tgt
                · rw [hst, Function.update_same]
                  simp
                · rw [Function.update_noteq hst]
                  exact (hMS m hmo').2 hd
            · obtain ⟨t, ht, rfl⟩ := Multiset.mem_map.mp hmn
              refine ⟨fun hd => ?_, fun hd => ?_⟩
              · simp at hd
              · rw [Function.update_same]
                simp
      | false =>
        have hsnd : tgt ∉ (b.g sn).in_ := (hMS _ hm).2 rfl
        have hi1in : (vtxErase (b.g tgt) sn false).in_ = (b.g tgt).in_ := rfl
        have hi1out : (vtxErase (b.g tgt) sn false).out =
          (b.g tgt).out.erase sn := rfl
        rcases hsh with ⟨hact1, hres1, hres2, hin1, hout1⟩ | ⟨hin1, heq⟩ |
          ⟨hin1, hout1, heq⟩
        · -- erase only, vertex stays active
          have hInEq : ∀ w,
              (Function.update b.g tgt (trimVtx tgt (b.g tgt) sn false).1 w).in_ =
                (b.g w).in_ := by
            intro w
            by_cases hw : w = tgt
            · subst hw
              rw [Function.update_same, hres1, hi1in]
            · rw [Function.update_noteq hw]
          have hOutEq : ∀ w, w ≠ tgt →
              (Function.update b.g tgt (trimVtx tgt (b.g tgt) sn false).1 w).out =
                (b.g w).out := by
            intro w hw
            rw [Function.update_noteq hw]
          have hOutT :
              (Function.update b.g tgt (trimVtx tgt (b.g tgt) sn false).1 tgt).out =
                (b.g tgt).out.erase sn := by
            rw [Function.update_same, hres1, hi1out]
          refine ⟨?_, ?_, ?_, ?_⟩ <;> dsimp only
          · intro w hw
            by_cases hwt : w = tgt
            · subst hwt
              rw [Function.update_same, hres1] at hw
              have hva : (vtxErase (b.g w) sn false).active = true := by
                unfold vtxErase
                simpa using ha
              rw [hva] at hw
              simp at hw
            · rw [Function.update_noteq hwt] at *
              exact hIE w hw
          · intro x y hx hy
            rw [hInEq] at hx
            rw [hres2, add_zero]
            by_cases hxt : x = tgt
            · subst hxt
              rw [hOutT] at hy
              by_cases hys : y = sn
              · subst hys
                exact absurd hx hsnd
              · have hy' : y ∉ (b.g x).out := by
                  intro hmem
                  exact hy (Finset.mem_erase.mpr ⟨hys, hmem⟩)
                refine mem_erase_of_ne_msg (hDI x y hx hy') ?_
                intro hcon
                rw [TrimMsg.mk.injEq] at hcon
                simp at hcon
            · rw [hOutEq x hxt] at hy
              refine mem_erase_of_ne_msg (hDI x y hx hy) ?_
              intro hcon
              rw [TrimMsg.mk.injEq] at hcon
              simp at hcon
          · intro x y hx hy
            rw [hInEq] at hy
            rw [hres2, add_zero]
            by_cases hyt : y = tgt
            · subst hyt
              rw [hOutT] at hx
              obtain ⟨hxs, hxm⟩ := Finset.mem_erase.mp hx
              refine mem_erase_of_ne_msg (hDO x y hxm hy) ?_
              intro hcon
              rw [TrimMsg.mk.injEq] at hcon
              exact hxs hcon.2.1
            · rw [hOutEq y hyt] at hx
              refine mem_erase_of_ne_msg (hDO x y hx hy) ?_
              intro hcon
              rw [TrimMsg.mk.injEq] at hcon
              exact hyt hcon.1
          · intro m hm'
            rw [hres2, add_zero] at hm'
            have hmo := Multiset.mem_of_mem_erase hm'
            refine ⟨fun hd => ?_, fun hd => ?_⟩
            · by_cases hst : m.sender = tgt
              · rw [hst, hOutT]
                intro hmem
                exact (hst ▸ (hMS m hmo).1 hd) (Finset.mem_of_mem_erase hmem)
              · rw [hOutEq _ hst]
                exact (hMS m hmo).1 hd
            · rw [hInEq]
              exact (hMS m hmo).2 hd
        · -- cascade: in side empty, vertex finalized forward
          have hgr : (trimVtx tgt (b.g tgt) sn false).1 =
              { vtxErase (b.g tgt) sn false with
                  comp_id := tgt, active := false, out := ∅ } := by rw [heq]
          have hgm : (trimVtx tgt (b.g tgt) sn false).2 =
              (vtxErase (b.g tgt) sn false).out.val.map
                (fun t => ⟨t, tgt, true⟩) := by
            rw [heq]
          have hInT0 : (b.g tgt).in_ = ∅ := by rw [← hi1in, hin1]
          refine ⟨?_, ?_, ?_, ?_⟩ <;> dsimp only <;> simp only [hgr, hgm]
          · intro w hw
            by_cases hwt : w = tgt
            · subst hwt
              rw [Function.update_same]
              exact ⟨rfl, hin1⟩
            · rw [Function.update_noteq hwt] at *
              exact hIE w hw
          · intro x y hx hy
            by_cases hyt : y = tgt
            · subst hyt
              rw [Function.update_same] at hx
              dsimp only at hx
              rw [hin1] at hx
              simp at hx
            · rw [Function.update_noteq hyt] at hx
              by_cases hxt : x = tgt
              · subst hxt
                by_cases hyo : y ∈ (vtxErase (b.g x) sn false).out
                · exact Multiset.mem_add.mpr (Or.inr (Multiset.mem_map_of_mem _ hyo))
                · rw [hi1out] at hyo
                  by_cases hys : y = sn
                  · subst hys
                    exact absurd hx hsnd
                  · have hyo' : y ∉ (b.g x).out := by
                      intro hmem
                      exact hyo (Finset.mem_erase.mpr ⟨hys, hmem⟩)
                    refine Multiset.mem_add.mpr (Or.inl
                      (mem_erase_of_ne_msg (hDI x y hx hyo') ?_))
                    intro hcon
                    rw [TrimMsg.mk.injEq] at hcon
                    simp at hcon
              · rw [Function.update_noteq hxt] at hy
                refine Multiset.mem_add.mpr (Or.inl
                  (mem_erase_of_ne_msg (hDI x y hx hy) ?_))
                intro hcon
                rw [TrimMsg.mk.injEq] at hcon
                simp at hcon
          · intro x y hx hy
            by_cases hyt : y = tgt
            · subst hyt
              rw [Function.update_same] at hx
              dsimp only at hx
              simp at hx
            · rw [Function.update_noteq hyt] at hx
              have hold : y ∉ (b.g x).in_ → (⟨y, x, false⟩ : TrimMsg) ∈
                  b.msgs.erase ⟨tgt, sn, false⟩ +
                    (vtxErase (b.g tgt) sn false).out.val.map
                      (fun t => ⟨t, tgt, true⟩) := by
                intro hy'
                refine Multiset.mem_add.mpr (Or.inl
                  (mem_erase_of_ne_msg (hDO x y hx hy') ?_))
                intro hcon
                rw [TrimMsg.mk.injEq] at hcon
                exact hyt hcon.1
              by_cases hxt : x = tgt
              · subst hxt
                exact hold (by rw [hInT0]; simp)
              · rw [Function.update_noteq hxt] at hy
                exact hold hy
          · intro m hm'
            rcases Multiset.mem_add.mp hm' with hmo | hmn
            · have hmo' := Multiset.mem_of_mem_erase hmo
              refine ⟨fun hd => ?_, fun hd => ?_⟩
              · by_cases hst : m.sender = tgt
                · rw [hst, Function.update_same]
                  simp
                · rw [Function.update_noteq hst]
                  exact (hMS m hmo').1 hd
              · by_cases hst : m.sender = tgt
                · rw [hst, Function.update_same]
                  intro hmem
                  dsimp only at hmem
                  rw [hin1] at hmem
                  simp at hmem
                · rw [Function.update_noteq hst]
                  exact (hMS m hmo').2 hd
            · obtain ⟨t, ht, rfl⟩ := Multiset.mem_map.mp hmn
              refine ⟨fun hd => ?_, fun hd => ?_⟩
              · rw [Function.update_same]
                simp
              · simp at hd
        · -- cascade: out side emptied, vertex finalized backward
          have hgr : (trimVtx tgt (b.g tgt) sn false).1 =
              { vtxErase (b.g tgt) sn false with
                  comp_id := tgt, active := false, in_ := ∅ } := by rw [heq]
          have hgm : (trimVtx tgt (b.g tgt) sn false).2 =
              (vtxErase (b.g tgt) sn false).in_.val.map
                (fun t => ⟨t, tgt, false⟩) := by
            rw [heq]
          have hsub : ∀ y, y ∈ (b.g tgt).out → y = sn := by
            intro y hy
            by_contra hne
            have : y ∈ (vtxErase (b.g tgt) sn false).out := by
              rw [hi1out]
              exact Finset.mem_erase.mpr ⟨hne, hy⟩
            rw [hout1] at this
            simp at this
          refine ⟨?_, ?_, ?_, ?_⟩ <;> dsimp only <;> simp only [hgr, hgm]
          · intro w hw
            by_cases hwt : w = tgt
            · subst hwt
              rw [Function.update_same]
              exact ⟨hout1, rfl⟩
            · rw [Function.update_noteq hwt] at *
              exact hIE w hw
          · intro x y hx hy
            by_cases hyt : y = tgt
            · subst hyt
              rw [Function.update_same] at hx
              dsimp only at hx
              simp at hx
            · rw [Function.update_noteq hyt] at hx
              by_cases hxt : x = tgt
              · subst hxt
                by_cases hys : y = sn
                · subst hys
                  exact absurd hx hsnd
                · have hyo' : y ∉ (b.g x).out := fun hmem => hys (hsub y hmem)
                  refine Multiset.mem_add.mpr (Or.inl
                    (mem_erase_of_ne_msg (hDI x y hx hyo') ?_))
                  intro hcon
                  rw [TrimMsg.mk.injEq] at hcon
                  simp at hcon
              · rw [Function.update_noteq hxt] at hy
                refine Multiset.mem_add.mpr (Or.inl
                  (mem_erase_of_ne_msg (hDI x y hx hy) ?_))
                intro hcon
                rw [TrimMsg.mk.injEq] at hcon
                simp at hcon
          · intro x y hx hy
            by_cases hyt : y = tgt
            · subst hyt
              rw [Function.update_same] at hx
              dsimp only at hx
              rw [hout1] at hx
              simp at hx
            · rw [Function.update_noteq hyt] at hx
              by_cases hxt : x = tgt
              · subst hxt
                by_cases hyi : y ∈ (vtxErase (b.g x) sn false).in_
                · exact Multiset.mem_add.mpr (Or.inr (Multiset.mem_map_of_mem _ hyi))
                · rw [hi1in] at hyi
                  refine Multiset.mem_add.mpr (Or.inl
                    (mem_erase_of_ne_msg (hDO x y hx hyi) ?_))
                  intro hcon
                  rw [TrimMsg.mk.injEq] at hcon
                  exact hyt hcon.1
              · rw [Function.update_noteq hxt] at hy
                refine Multiset.mem_add.mpr (Or.inl
                  (mem_erase_of_ne_msg (hDO x y hx hy) ?_))
                intro hcon
                rw [TrimMsg.mk.injEq] at hcon
                exact hyt hcon.1
          · intro m hm'
            rcases Multiset.mem_add.mp hm' with hmo | hmn
            · have hmo' := Multiset.mem_of_mem_erase hmo
              refine ⟨fun hd => ?_, fun hd => ?_⟩
              · by_cases hst : m.sender = tgt
                · rw [hst, Function.update_same]
                  intro hmem
                  dsimp only at hmem
                  rw [hout1] at hmem
                  simp at hmem
                · rw [Function.update_noteq hst]
                  exact (hMS m hmo').1 hd
              · by_cases hst : m.sender = tgt
                · rw [hst, Function.update_same]
                  simp
                · rw [Function.update_noteq hst]
                  exact (hMS m hmo').2 hd
            · obtain ⟨t, ht, rfl⟩ := Multiset.mem_map.mp hmn
              refine ⟨fun hd => ?_, fun hd => ?_⟩
              · simp at hd
              · rw [Function.update_same]
                simp

/-- From a symmetric entry state in which inactive vertices are bare,
any trim run ends symmetric (and with inactive vertices bare). -/
theorem trim_preserves_symmetry (verts : Finset Nat) (g g' : Nat → VtxInfo)
    (hsym : SymG g) (hie : InactiveEmptyG g) (hrun : TrimRun verts g g') :
    SymG g' ∧ InactiveEmptyG g' := by
  have hinit : TrimSymInv ⟨g, verts, 0⟩ := by
    refine ⟨hie, ?_, ?_, ?_⟩
    · intro x y hx hy
      exact absurd ((hsym x y).mpr hx) hy
    · intro x y hx hy
      exact absurd ((hsym y x).mp hx) hy
    · intro m hm
      simp at hm
  obtain ⟨hIE, hDI, hDO, hMS⟩ :=
    trimRTG_preserve TrimSymInv trimSymInv_step _ _ hrun hinit
  refine ⟨?_, hIE⟩
  intro u v
  constructor
  · intro hvo
    by_contra hvi
    have := hDO v u hvo hvi
    simp at this
  · intro hvi
    by_contra hvo
    have := hDI u v hvi hvo
    simp at this

/-! ## Ingest (`create_vertex_map`, graph_util.hpp lines 28-74) -/

/-- A freshly default-constructed record, as the map creates on first
visit. -/
def emptyVtx : VtxInfo := { out := ∅, in_ := ∅ }

/-- The `add_fwd_edge` handler. -/
def addFwdEdge (dst : Nat) (i : VtxInfo) : VtxInfo :=
  { i with out := insert dst i.out }

/-- The `add_reverse_edge` handler. -/
def addRevEdge (src : Nat) (i : VtxInfo) : VtxInfo :=
  { i with in_ := insert src i.in_ }

/-- Processing one parsed edge line `(src, dst)`: the parser applies the
`+1` id offset and submits the two handlers. -/
def ingestEdge (g : Nat → VtxInfo) (e : Nat × Nat) : Nat → VtxInfo :=
  let g1 := Function.update g (e.1 + 1) (addFwdEdge (e.2 + 1) (g (e.1 + 1)))
  Function.update g1 (e.2 + 1) (addRevEdge (e.1 + 1) (g1 (e.2 + 1)))

/-- `create_vertex_map` over a parsed edge list. -/
def createVertexMap (edges : List (Nat × Nat)) : Nat → VtxInfo :=
  edges.foldl ingestEdge (fun _ => emptyVtx)

theorem ingestEdge_out (g : Nat → VtxInfo) (e : Nat × Nat) (u : Nat) :
    (ingestEdge g e u).out =
      if u = e.1 + 1 then insert (e.2 + 1) (g u).out else (g u).out := by
  unfold ingestEdge addFwdEdge addRevEdge
  by_cases h2 : u = e.2 + 1 <;> by_cases h1 : u = e.1 + 1
  · have h12 : e.2 + 1 = e.1 + 1 := by omega
    simp [Function.update_apply, h1, h2, h12]
  · have h21 : ¬(e.2 = e.1) := by omega
    simp [Function.update_apply, h1, h2, h21]
  · have h21 : ¬(e.1 = e.2) := by omega
    simp [Function.update_apply, h1, h2, h21]
  · simp [Function.update_apply, h1, h2]

theorem ingestEdge_in (g : Nat → VtxInfo) (e : Nat × Nat) (u : Nat) :
    (ingestEdge g e u).in_ =
      if u = e.2 + 1 then insert (e.1 + 1) (g u).in_ else (g u).in_ := by
  unfold ingestEdge addFwdEdge addRevEdge
  by_cases h2 : u = e.2 + 1 <;> by_cases h1 : u = e.1 + 1
  · have h12 : e.2 + 1 = e.1 + 1 := by omega
    simp [Function.update_apply, h1, h2, h12]
  · have h21 : ¬(e.2 = e.1) := by omega
    simp [Function.update_apply, h1, h2, h21]
  · have h21 : ¬(e.1 = e.2) := by omega
    simp [Function.update_apply, h1, h2, h21]
  · simp [Function.update_apply, h1, h2]

theorem ingestEdge_sym (g : Nat → VtxInfo) (e : Nat × Nat) (hsym : SymG g) :
    SymG (ingestEdge g e) := by
  intro u v
  rw [ingestEdge_out g e u, ingestEdge_in g e v]
  by_cases h1 : u = e.1 + 1 <;> by_cases h2 : v = e.2 + 1
  · rw [if_pos h1, if_pos h2]
    simp [h1, h2]
  · rw [if_pos h1, if_neg h2]
    rw [Finset.mem_insert]
    constructor
    · intro h
      rcases h with h | h
      · exact absurd h h2
      · exact (hsym u v).mp h
    · intro h
      exact Or.inr ((hsym u v).mpr h)
  · rw [if_neg h1, if_pos h2]
    rw [Finset.mem_insert]
    constructor
    · intro h
      exact Or.inr ((hsym u v).mp h)
    · intro h
      rcases h with h | h
      · exact absurd h h1
      · exact (hsym u v).mpr h
  · rw [if_neg h1, if_neg h2]
    exact hsym u v

/-- Ingest establishes edge symmetry. -/
theorem createVertexMap_sym (edges : List (Nat × Nat)) :
    SymG (createVertexMap edges) := by
  unfold createVertexMap
  have h0 : SymG (fun _ => emptyVtx) := by
    intro u v
    simp [emptyVtx]
  revert h0
  generalize (fun _ => emptyVtx : Nat → VtxInfo) = g0
  induction edges generalizing g0 with
  | nil => exact id
  | cons e es ih =>
    intro h0
    exact ih (ingestEdge g0 e) (ingestEdge_sym g0 e h0)

/-- Shearing preserves edge symmetry. -/
theorem shearEdges_sym (s : GState) (hsym : SymG s.info) :
    SymG (shearEdges s).info := by
  intro u v
  rw [shear_in_eq s v]
  by_cases hu : u ∈ s.verts ∧ (s.info u).active = true
  · rw [shear_out_eq s u hu]
    constructor
    · intro hmem
      obtain ⟨hvo, hmk⟩ := Finset.mem_filter.mp hmem
      refine Finset.mem_filter.mpr ⟨(hsym u v).mp hvo, ?_⟩
      intro hcon
      rw [hmk] at hcon
      simp at hcon
    · intro hmem
      obtain ⟨hvi, hnt⟩ := Finset.mem_filter.mp hmem
      have hvo := (hsym u v).mpr hvi
      refine Finset.mem_filter.mpr ⟨hvo, ?_⟩
      by_cases hmk : marksDiffer (s.info u) (s.info v) = true
      · exact absurd ⟨hu.1, hu.2, hvo, hmk⟩ hnt
      · simpa using hmk
  · have hout : ((shearEdges s).info u).out = (s.info u).out := by
      unfold shearEdges
      dsimp only
      rw [if_neg hu]
    rw [hout]
    constructor
    · intro hvo
      refine Finset.mem_filter.mpr ⟨(hsym u v).mp hvo, ?_⟩
      intro hcon
      exact hu ⟨hcon.1, hcon.2.1⟩
    · intro hmem
      exact (hsym u v).mpr (Finset.mem_filter.mp hmem).1

/-! ## WCC pivot selection (`init_wcc_pivots`, scc_dcsc_regular.hpp 138-228) -/

/-- The per-round seed: 64-bit golden ratio plus the round index, with
`uint64_t` wrap-around. -/
def roundSeed (iter : Nat) : Nat := (goldenSeed + iter) % U64

/-- The permuter built by `init_wcc_pivots` for round `iter` over
`[min, max]`. -/
def roundPermuter (iter mn mx : Nat) : Nat → Nat :=
  fun v => fppPermute (mkFppPermuter mn mx (roundSeed iter)) v

/-- The first scan of `init_wcc_pivots`: every active vertex records its
own permuter image as `my_pivot` and `wcc_pivot` and marks itself. -/
def pivInitVtx (pi2 : Nat → Nat) (v : Nat) (i : VtxInfo) : VtxInfo :=
  if i.active = true then
    { i with my_pivot := pi2 v, wcc_pivot := pi2 v, my_marker := v }
  else i

def pivInitG (pi2 : Nat → Nat) (verts : Finset Nat) (g : Nat → VtxInfo) :
    Nat → VtxInfo :=
  fun v => if v ∈ verts then pivInitVtx pi2 v (g v) else g v

/-- The seeding scan: an active vertex is pushed onto the work queue with
its `my_pivot` iff no out- or in-neighbor has a permuter image below its
current `wcc_pivot` (the send-suppression optimization; the neighbor's
activity is not consulted). -/
def pivSeedsQueue (pi2 : Nat → Nat) (verts : Finset Nat) (g : Nat → VtxInfo) :
    Multiset (Nat × Nat) :=
  (verts.filter (fun v => (g v).active = true ∧
      (∀ d ∈ (g v).out, ¬(pi2 d < (g v).wcc_pivot)) ∧
      (∀ a ∈ (g v).in_, ¬(pi2 a < (g v).wcc_pivot)))).val.map
    (fun v => ((g v).my_pivot, v))

/-- A pivot-propagation configuration: records, the local work queue
(`(pivot, vertex)` pairs), and in-flight `(target, pivot)` visits. -/
structure PivState where
  g : Nat → VtxInfo
  queue : Multiset (Nat × Nat)
  msgs : Multiset (Nat × Nat)

/-- One scheduler step of the pivot propagation.  Queue pops are modelled
order-nondeterministically, which covers the ascending-pivot order the
code's `std::priority_queue` realises.  A popped pair whose pivot still
matches the vertex's `wcc_pivot` broadcasts the current `wcc_pivot` to
every out- and in-neighbor (`pop_front_and_send`); a stale pair is
discarded.  A delivered visit (`recv_and_enqueue`) at an active vertex
with a strictly smaller pivot lowers `wcc_pivot` and pushes the pair;
otherwise it is dropped. -/
inductive PivStep : PivState → PivState → Prop
  | pop_send (s : PivState) (p v : Nat) (hq : (p, v) ∈ s.queue)
      (hcur : p = (s.g v).wcc_pivot) :
      PivStep s ⟨s.g, s.queue.erase (p, v),
        s.msgs + ((s.g v).out.val.map (fun d => (d, (s.g v).wcc_pivot)) +
          (s.g v).in_.val.map (fun a => (a, (s.g v).wcc_pivot)))⟩
  | pop_stale (s : PivState) (p v : Nat) (hq : (p, v) ∈ s.queue)
      (hcur : p ≠ (s.g v).wcc_pivot) :
      PivStep s ⟨s.g, s.queue.erase (p, v), s.msgs⟩
  | deliver_upd (s : PivState) (n p : Nat) (hm : (n, p) ∈ s.msgs)
      (hact : (s.g n).active = true) (hlt : p < (s.g n).wcc_pivot) :
      PivStep s ⟨Function.update s.g n { s.g n with wcc_pivot := p },
        s.queue + {(p, n)}, s.msgs.erase (n, p)⟩
  | deliver_drop (s : PivState) (n p : Nat) (hm : (n, p) ∈ s.msgs)
      (hdrop : ¬((s.g n).active = true ∧ p < (s.g n).wcc_pivot)) :
      PivStep s ⟨s.g, s.queue, s.msgs.erase (n, p)⟩

/-- A complete `init_wcc_pivots` phase with permuter `pi2`: initialize,
seed, then run the queue and the in-flight visits to quiescence (the
`YGM_ASSERT_RELEASE(workqueue.size() == 0)` of the source). -/
def PivRun (pi2 : Nat → Nat) (verts : Finset Nat) (g gfin : Nat → VtxInfo) :
    Prop :=
  Relation.ReflTransGen PivStep
    ⟨pivInitG pi2 verts g, pivSeedsQueue pi2 verts (pivInitG pi2 verts g), 0⟩
    ⟨gfin, 0, 0⟩

theorem pivRTG_preserve (P : PivState → Prop)
    (hstep : ∀ b c, PivStep b c → P b → P c) :
    ∀ s t, Relation.ReflTransGen PivStep s t → P s → P t := by
  intro s t h
  induction h with
  | refl => exact id
  | tail hab hbc ih => exact fun hs => hstep _ _ hbc (ih hs)

/-- Pivot-propagation steps never change adjacency or activity. -/
theorem pivStep_edges (b c : PivState) (hbc : PivStep b c) :
    ∀ v, (c.g v).out = (b.g v).out ∧ (c.g v).in_ = (b.g v).in_ ∧
      (c.g v).active = (b.g v).active := by
  cases hbc with
  | pop_send p v hq hcur => exact fun w => ⟨rfl, rfl, rfl⟩
  | pop_stale p v hq hcur => exact fun w => ⟨rfl, rfl, rfl⟩
  | deliver_upd n p hm hact hlt =>
    intro w
    dsimp only
    by_cases hw : w = n
    · subst hw
      rw [Function.update_same]
      exact ⟨rfl, rfl, rfl⟩
    · rw [Function.update_noteq hw]
      exact ⟨rfl, rfl, rfl⟩
  | deliver_drop n p hm hdrop => exact fun w => ⟨rfl, rfl, rfl⟩

/-! ## Forward/backward marking (`prop_pivots`) -/

/-- A marking flood message: direction (true = forward), target, pivot,
marker. -/
structure MarkMsg where
  dir : Bool
  target : Nat
  pivot : Nat
  marker : Nat
deriving DecidableEq

/-- The representative scan of `prop_pivots`: an active vertex whose
`wcc_pivot` equals its own `my_pivot` marks itself both ways, records
itself as marker, and floods backward over `in` and forward over
`out`. -/
def markScan (v : Nat) (i : VtxInfo) : VtxInfo × Multiset MarkMsg :=
  if i.active = true then
    if i.wcc_pivot = i.my_pivot then
      ({ i with mark_desc := true, mark_pred := true, my_marker := v },
       i.in_.val.map (fun n => ⟨false, n, i.wcc_pivot, v⟩) +
         i.out.val.map (fun n => ⟨true, n, i.wcc_pivot, v⟩))
    else (i, 0)
  else (i, 0)

structure MarkState where
  g : Nat → VtxInfo
  pending : Finset Nat
  msgs : Multiset MarkMsg

/-- One scheduler step of the marking phase: a representative scan, or
delivery of a forward (`comp_pivot_fwd`) or backward (`comp_pivot_bwd`)
flood message. -/
inductive MarkStep : MarkState → MarkState → Prop
  | scan (s : MarkState) (v : Nat) (hv : v ∈ s.pending) :
      MarkStep s ⟨Function.update s.g v (markScan v (s.g v)).1,
        s.pending.erase v, s.msgs + (markScan v (s.g v)).2⟩
  | deliver_fwd (s : MarkState) (m : MarkMsg) (hm : m ∈ s.msgs)
      (hd : m.dir = true) :
      MarkStep s ⟨Function.update s.g m.target
          (compPivotFwd (s.g m.target) m.pivot m.marker).1, s.pending,
        s.msgs.erase m +
          (((compPivotFwd (s.g m.target) m.pivot m.marker).2.map
            (fun t => (⟨true, t.1, t.2.1, t.2.2⟩ : MarkMsg))) : Multiset MarkMsg)⟩
  | deliver_bwd (s : MarkState) (m : MarkMsg) (hm : m ∈ s.msgs)
      (hd : m.dir = false) :
      MarkStep s ⟨Function.update s.g m.target
          (compPivotBwd (s.g m.target) m.pivot m.marker).1, s.pending,
        s.msgs.erase m +
          (((compPivotBwd (s.g m.target) m.pivot m.marker).2.map
            (fun t => (⟨false, t.1, t.2.1, t.2.2⟩ : MarkMsg))) : Multiset MarkMsg)⟩

/-- A complete `prop_pivots` phase. -/
def MarkRun (verts : Finset Nat) (g gfin : Nat → VtxInfo) : Prop :=
  Relation.ReflTransGen MarkStep ⟨g, verts, 0⟩ ⟨gfin, ∅, 0⟩

theorem compPivotFwd_edges (i : VtxInfo) (p mk : Nat) :
    (compPivotFwd i p mk).1.out = i.out ∧ (compPivotFwd i p mk).1.in_ = i.in_ := by
  unfold compPivotFwd
  split_ifs <;> exact ⟨rfl, rfl⟩

theorem compPivotBwd_edges (i : VtxInfo) (p mk : Nat) :
    (compPivotBwd i p mk).1.out = i.out ∧ (compPivotBwd i p mk).1.in_ = i.in_ := by
  unfold compPivotBwd
  split_ifs <;> exact ⟨rfl, rfl⟩

theorem markScan_edges (v : Nat) (i : VtxInfo) :
    (markScan v i).1.out = i.out ∧ (markScan v i).1.in_ = i.in_ := by
  unfold markScan
  split_ifs <;> exact ⟨rfl, rfl⟩

/-- Marking steps never change adjacency. -/
theorem markStep_edges (b c : MarkState) (hbc : MarkStep b c) :
    ∀ v, (c.g v).out = (b.g v).out ∧ (c.g v).in_ = (b.g v).in_ := by
  cases hbc with
  | scan v hv =>
    intro w
    dsimp only
    by_cases hw : w = v
    · subst hw
      rw [Function.update_same]
      exact markScan_edges w (b.g w)
    · rw [Function.update_noteq hw]
      exact ⟨rfl, rfl⟩
  | deliver_fwd m hm hd =>
    intro w
    dsimp only
    by_cases hw : w = m.target
    · subst hw
      rw [Function.update_same]
      exact compPivotFwd_edges (b.g m.target) m.pivot m.marker
    · rw [Function.update_noteq hw]
      exact ⟨rfl, rfl⟩
  | deliver_bwd m hm hd =>
    intro w
    dsimp only
    by_cases hw : w = m.target
    · subst hw
      rw [Function.update_same]
      exact compPivotBwd_edges (b.g m.target) m.pivot m.marker
    · rw [Function.update_noteq hw]
      exact ⟨rfl, rfl⟩

theorem markRTG_preserve (P : MarkState → Prop)
    (hstep : ∀ b c, MarkStep b c → P b → P c) :
    ∀ s t, Relation.ReflTransGen MarkStep s t → P s → P t := by
  intro s t h
  induction h with
  | refl => exact id
  | tail hab hbc ih => exact fun hs => hstep _ _ hbc (ih hs)

/-- Transporting symmetry along pointwise-equal adjacency. -/
theorem symG_of_edges_eq (g g' : Nat → VtxInfo)
    (h : ∀ v, (g' v).out = (g v).out ∧ (g' v).in_ = (g v).in_)
    (hsym : SymG g) : SymG g' := by
  intro u v
  rw [(h u).1, (h v).2]
  exact hsym u v

/-- A pivot-selection run preserves adjacency pointwise. -/
theorem pivRun_edges (pi2 : Nat → Nat) (verts : Finset Nat)
    (g gfin : Nat → VtxInfo) (hrun : PivRun pi2 verts g gfin) :
    ∀ v, (gfin v).out = (g v).out ∧ (gfin v).in_ = (g v).in_ := by
  have hinit : ∀ v, ((pivInitG pi2 verts g) v).out = (g v).out ∧
      ((pivInitG pi2 verts g) v).in_ = (g v).in_ := by
    intro v
    unfold pivInitG pivInitVtx
    split_ifs <;> exact ⟨rfl, rfl⟩
  have := pivRTG_preserve
    (fun s => ∀ v, (s.g v).out = (g v).out ∧ (s.g v).in_ = (g v).in_)
    (fun b c hbc hP v => by
      obtain ⟨ho, hi, _⟩ := pivStep_edges b c hbc v
      exact ⟨ho.trans (hP v).1, hi.trans (hP v).2⟩)
    _ _ hrun hinit
  exact this

/-- A marking run preserves adjacency pointwise. -/
theorem markRun_edges (verts : Finset Nat) (g gfin : Nat → VtxInfo)
    (hrun : MarkRun verts g gfin) :
    ∀ v, (gfin v).out = (g v).out ∧ (gfin v).in_ = (g v).in_ := by
  have := markRTG_preserve
    (fun s => ∀ v, (s.g v).out = (g v).out ∧ (s.g v).in_ = (g v).in_)
    (fun b c hbc hP v => by
      obtain ⟨ho, hi⟩ := markStep_edges b c hbc v
      exact ⟨ho.trans (hP v).1, hi.trans (hP v).2⟩)
    _ _ hrun (fun v => ⟨rfl, rfl⟩)
  exact this

/-- The freeze scan never changes adjacency. -/
theorem prep_edges (s : GState) :
    ∀ v, ((prepUnterminated s).1.info v).out = (s.info v).out ∧
      ((prepUnterminated s).1.info v).in_ = (s.info v).in_ := by
  intro v
  unfold prepUnterminated freezeVtx
  dsimp only
  split_ifs <;> exact ⟨rfl, rfl⟩

/-! ## C6: edge symmetry at barrier boundaries -/

/-- The C6 counterexample entry map: vertex 1 is inactive but still holds
the out-edge to 2 (the state freeze leaves behind), vertex 2 is active
with the matching in-edge.  The map is symmetric. -/
def gC6 : Nat → VtxInfo := fun v =>
  if v = 1 then
    { out := {2}, in_ := ∅, comp_id := 1, active := false }
  else if v = 2 then { out := ∅, in_ := {1} }
  else { out := ∅, in_ := ∅ }

/-- The quiescent map the trim run below reaches: vertex 2 deactivated
with `in` cleared, vertex 1 untouched (still pointing at 2). -/
def gC6fin : Nat → VtxInfo := Function.update gC6 2 (trimScan 2 (gC6 2)).1

theorem gC6_sym : SymG gC6 := by
  intro u v
  by_cases hu1 : u = 1 <;> by_cases hu2 : u = 2 <;>
    by_cases hv1 : v = 1 <;> by_cases hv2 : v = 2 <;>
    simp [gC6, hu1, hu2, hv1, hv2]

theorem gC6_run : TrimRun {1, 2} gC6 gC6fin := by
  have h1 := TrimStep.scan ⟨gC6, {1, 2}, 0⟩ 1 (by decide)
  have e1 : (⟨Function.update gC6 1 (trimScan 1 (gC6 1)).1,
      Finset.erase {1, 2} 1, 0 + (trimScan 1 (gC6 1)).2⟩ : TrimState) =
      ⟨gC6, {2}, 0⟩ := by
    have hs : trimScan 1 (gC6 1) = (gC6 1, 0) :=
      trimScan_inactive 1 (gC6 1) (by decide)
    rw [hs, Function.update_eq_self]
    have hp : Finset.erase {1, 2} 1 = ({2} : Finset Nat) := by decide
    rw [hp]
    rfl
  have h2 := TrimStep.scan ⟨gC6, {2}, 0⟩ 2 (by decide)
  have e2 : (⟨Function.update gC6 2 (trimScan 2 (gC6 2)).1,
      Finset.erase {2} 2, 0 + (trimScan 2 (gC6 2)).2⟩ : TrimState) =
      ⟨gC6fin, ∅, {⟨1, 2, false⟩}⟩ := by
    have hp : Finset.erase {2} 2 = (∅ : Finset Nat) := by decide
    have hm : (0 + (trimScan 2 (gC6 2)).2) =
        ({⟨1, 2, false⟩} : Multiset TrimMsg) := by decide
    rw [hp, hm]
    rfl
  have h3 := TrimStep.deliver ⟨gC6fin, ∅, {⟨1, 2, false⟩}⟩ ⟨1, 2, false⟩
    (by decide)
  have e3 : (⟨Function.update gC6fin 1
      (trimVtx 1 (gC6fin 1) 2 false).1, ∅,
      Multiset.erase {⟨1, 2, false⟩} ⟨1, 2, false⟩ +
        (trimVtx 1 (gC6fin 1) 2 false).2⟩ : TrimState) =
      ⟨gC6fin, ∅, 0⟩ := by
    have hv : trimVtx 1 (gC6fin 1) 2 false = (gC6fin 1, 0) :=
      trimVtx_inactive 1 (gC6fin 1) 2 false (by decide)
    rw [hv, Function.update_eq_self]
    have hm : (Multiset.erase {⟨1, 2, false⟩} ⟨1, 2, false⟩ +
        ((gC6fin 1, (0 : Multiset TrimMsg)).2)) = 0 := by decide
    rw [hm]
  exact Relation.ReflTransGen.head (e1 ▸ h1)
    (Relation.ReflTransGen.head (e2 ▸ h2)
      (Relation.ReflTransGen.single (e3 ▸ h3)))

/-- C6 counterexample: a symmetric entry state in which an inactive
vertex still holds an edge (the state freeze produces) makes trim end
asymmetric — the cascade erase aimed at the inactive vertex 1 is dropped
by its handler's activity guard, while the active vertex 2 already
cleared its own `in` set.  At the trim barrier, 2 is in 1's `out` but 1
is not in 2's `in`. -/
theorem c6_counterexample :
    SymG gC6 ∧ TrimRun {1, 2} gC6 gC6fin ∧
    2 ∈ (gC6fin 1).out ∧ 1 ∉ (gC6fin 2).in_ :=
  ⟨gC6_sym, gC6_run, by decide, by decide⟩

/-- C6 (amended): edge symmetry is established by ingest and preserved at
the barrier of every phase, with trim requiring in addition that inactive
vertices hold no edges at entry (which a preceding freeze violates):
ingest yields a symmetric map; trim from a symmetric map whose inactive
vertices are bare ends symmetric; pivot selection and marking never touch
adjacency, so they preserve symmetry from any entry; the freeze scan and
shear preserve symmetry. -/
theorem c6_symmetry_amended :
    (∀ edges : List (Nat × Nat), SymG (createVertexMap edges)) ∧
    (∀ (verts : Finset Nat) (g g' : Nat → VtxInfo), SymG g →
      InactiveEmptyG g → TrimRun verts g g' → SymG g') ∧
    (∀ (pi2 : Nat → Nat) (verts : Finset Nat) (g gfin : Nat → VtxInfo),
      PivRun pi2 verts g gfin → SymG g → SymG gfin) ∧
    (∀ (verts : Finset Nat) (g gfin : Nat → VtxInfo),
      MarkRun verts g gfin → SymG g → SymG gfin) ∧
    (∀ s : GState, SymG s.info → SymG (prepUnterminated s).1.info) ∧
    (∀ s : GState, SymG s.info → SymG (shearEdges s).info) := by
  refine ⟨createVertexMap_sym, ?_, ?_, ?_, ?_, shearEdges_sym⟩
  · exact fun verts g g' hs hie hrun =>
      (trim_preserves_symmetry verts g g' hs hie hrun).1
  · exact fun pi2 verts g gfin hrun hs =>
      symG_of_edges_eq g gfin (pivRun_edges pi2 verts g gfin hrun) hs
  · exact fun verts g gfin hrun hs =>
      symG_of_edges_eq g gfin (markRun_edges verts g gfin hrun) hs
  · exact fun s hs =>
      symG_of_edges_eq s.info _ (prep_edges s) hs

/-- Witness for C6 (amended): each conjunct applied at a concrete
input — the one-edge ingest, the singleton trim run, a trivial pivot
and marking run, and freeze/shear on the singleton state. -/
theorem c6_symmetry_amended_witness :
    SymG (createVertexMap [(0, 1)]) ∧
    SymG gW1 ∧
    SymG (pivInitG id ∅ gW) ∧
    SymG gW ∧
    SymG (prepUnterminated ⟨{1}, gW⟩).1.info ∧
    SymG (shearEdges ⟨{1}, gW⟩).info := by
  have h := c6_symmetry_amended
  have hsymW : SymG gW := by
    intro u v
    simp [gW]
  have hieW : InactiveEmptyG gW := by
    intro v hv
    simp [gW] at hv
  refine ⟨h.1 [(0, 1)], h.2.1 {1} gW gW1 hsymW hieW gW_run_first, ?_, ?_,
    h.2.2.2.2.1 ⟨{1}, gW⟩ hsymW, h.2.2.2.2.2 ⟨{1}, gW⟩ hsymW⟩
  · refine h.2.2.1 id ∅ gW (pivInitG id ∅ gW) ?_ hsymW
    unfold PivRun
    have hseeds : pivSeedsQueue id ∅ (pivInitG id ∅ gW) = 0 := rfl
    rw [hseeds]
  · exact h.2.2.2.1 ∅ gW gW Relation.ReflTransGen.refl hsymW

/-! ## C1: WCC-min correctness of pivot selection -/

/-- One active undirected hop: both endpoints active and the target in
either adjacency set of the source. -/
def adjA (g : Nat → VtxInfo) (u v : Nat) : Prop :=
  (g u).active = true ∧ (g v).active = true ∧
    (v ∈ (g u).out ∨ v ∈ (g u).in_)

/-- Reachability along active undirected edges. -/
def ReachA (g : Nat → VtxInfo) (u v : Nat) : Prop :=
  Relation.ReflTransGen (adjA g) u v

/-- The round-0 permuter over the id range `[1, 3]`; its values are
`piC1fn 1 = 2`, `piC1fn 2 = 1`, `piC1fn 3 = 3`. -/
def piC1fn : Nat → Nat := roundPermuter 0 1 3

/-- The C1 counterexample entry map: 1 and 3 form an active 2-cycle and
the frozen vertex 2 (the smallest permuter image of the round) is still
recorded in 1's `in` set, exactly as a freeze leaves it.  The map is even
edge-symmetric. -/
def gC1 : Nat → VtxInfo := fun v =>
  if v = 1 then { out := {3}, in_ := {2, 3} }
  else if v = 2 then { out := {1}, in_ := ∅, comp_id := 2, active := false }
  else if v = 3 then { out := {1}, in_ := {1} }
  else { out := ∅, in_ := ∅, active := false }

/-- The quiescent state of the counterexample round: only the local init
scan acts, the queue is never seeded. -/
def gC1fin : Nat → VtxInfo := pivInitG piC1fn {1, 2, 3} gC1

theorem ceilLog2_three : ceilLog2U64 3 = 2 := by
  simp [ceilLog2U64, clog2Aux]

/-- The cached constructor state of the round-0 permuter over `[1, 3]`,
as an explicit record (so that the kernel can evaluate the permuter). -/
def piC1dat : FppData :=
  ⟨1, 3, roundSeed 0, false, 3, 2, 3, 3485596574, 1844080821, 837764053⟩

theorem piC1_record : mkFppPermuter 1 3 (roundSeed 0) = piC1dat := by
  unfold piC1dat
  simp only [mkFppPermuter]
  norm_num
  refine ⟨ceilLog2_three, by rw [ceilLog2_three]; rfl, by decide, by decide,
    by decide⟩

theorem piC1fn_eq : piC1fn = fun v => fppPermute piC1dat v := by
  unfold piC1fn roundPermuter
  rw [piC1_record]

theorem gC1_run : PivRun piC1fn {1, 2, 3} gC1 gC1fin := by
  unfold PivRun
  have hseeds : pivSeedsQueue piC1fn {1, 2, 3}
      (pivInitG piC1fn {1, 2, 3} gC1) = 0 := by
    rw [piC1fn_eq]
    decide
  rw [hseeds]
  exact Relation.ReflTransGen.refl

/-- C1 counterexample: on the round-0 permuter over `[1, 3]`, the stale
reference to the frozen vertex 2 (whose image 1 is the round minimum)
suppresses the seeding of vertex 1 — the minimum of the active component
`{1, 3}` — and vertex 1's smaller image suppresses the seeding of vertex
3, so the work queue starts empty and the phase is quiescent immediately:
vertex 3 ends with `wcc_pivot = 3` although the reachable active vertex 1
has image 2. -/
theorem c1_counterexample :
    PivRun piC1fn {1, 2, 3} gC1 gC1fin ∧
    (gC1fin 3).active = true ∧
    ReachA gC1fin 3 1 ∧
    piC1fn 1 < (gC1fin 3).wcc_pivot := by
  have hfin : gC1fin = pivInitG (fun v => fppPermute piC1dat v) {1, 2, 3} gC1 := by
    unfold gC1fin
    rw [piC1fn_eq]
  refine ⟨gC1_run, ?_, ?_, ?_⟩
  · rw [hfin]
    decide
  · refine Relation.ReflTransGen.single ⟨?_, ?_, Or.inl ?_⟩ <;> rw [hfin] <;>
      decide
  · rw [piC1fn_eq, hfin]
    decide

theorem adjA_symm (g : Nat → VtxInfo) (hsym : SymG g) :
    ∀ u v, adjA g u v → adjA g v u := by
  intro u v h
  obtain ⟨hu, hv, h⟩ := h
  refine ⟨hv, hu, ?_⟩
  rcases h with h | h
  · exact Or.inr ((hsym u v).mp h)
  · exact Or.inl ((hsym v u).mpr h)

theorem reachA_symm (g : Nat → VtxInfo) (hsym : SymG g) :
    ∀ u v, ReachA g u v → ReachA g v u := by
  intro u v h
  induction h with
  | refl => exact Relation.ReflTransGen.refl
  | tail hab hbc ih =>
    exact Relation.ReflTransGen.head (adjA_symm g hsym _ _ hbc) ih

theorem reachA_active (g : Nat → VtxInfo) (v u : Nat)
    (hv : (g v).active = true) (h : ReachA g v u) : (g u).active = true := by
  induction h with
  | refl => exact hv
  | tail hab hbc ih => exact hbc.2.1

theorem reachA_set_eq (g : Nat → VtxInfo) (hsym : SymG g) (u v : Nat)
    (huv : ReachA g u v) : {w | ReachA g v w} = {w | ReachA g u w} := by
  ext w
  constructor
  · exact fun h => Relation.ReflTransGen.trans huv h
  · exact fun h => Relation.ReflTransGen.trans (reachA_symm g hsym u v huv) h

theorem reachA_congr (g g' : Nat → VtxInfo)
    (h : ∀ v, (g' v).out = (g v).out ∧ (g' v).in_ = (g v).in_ ∧
      (g' v).active = (g v).active) :
    ∀ u v, ReachA g' u v ↔ ReachA g u v := by
  have hadj : ∀ u v, adjA g' u v ↔ adjA g u v := by
    intro u v
    unfold adjA
    rw [(h u).1, (h u).2.1, (h u).2.2, (h v).2.2]
  intro u v
  constructor
  · exact Relation.ReflTransGen.mono (fun a b hab => (hadj a b).mp hab)
  · exact Relation.ReflTransGen.mono (fun a b hab => (hadj a b).mpr hab)

/-- The in-flight invariant of the pivot-propagation run over an entry
map `g`: adjacency and activity are untouched; every active record's
`wcc_pivot` is the image of some reachable vertex and at most its own
image; queue entries name active vertices; in-flight pivots aimed at
active vertices are images of vertices reachable from the target; and an
active vertex whose `wcc_pivot` is already its component minimum either
still has its matching queue entry or has every neighbor covered (either
already at most its value or with the visit in flight). -/
def PivInv (pi2 : Nat → Nat) (g : Nat → VtxInfo) (s : PivState) : Prop :=
  (∀ v, (s.g v).out = (g v).out ∧ (s.g v).in_ = (g v).in_ ∧
    (s.g v).active = (g v).active) ∧
  (∀ v, (g v).active = true →
    ∃ u, ReachA g v u ∧ (s.g v).wcc_pivot = pi2 u) ∧
  (∀ v, (g v).active = true → (s.g v).wcc_pivot ≤ pi2 v) ∧
  (∀ e ∈ s.queue, (g (Prod.snd e)).active = true) ∧
  (∀ e ∈ s.msgs, (g (Prod.fst e)).active = true →
    ∃ u, ReachA g (Prod.fst e) u ∧ Prod.snd e = pi2 u) ∧
  (∀ v, (g v).active = true →
    IsLeast (pi2 '' {u | ReachA g v u}) ((s.g v).wcc_pivot) →
    (((s.g v).wcc_pivot, v) ∈ s.queue ∨
      ∀ n, adjA g v n → (s.g n).wcc_pivot ≤ (s.g v).wcc_pivot ∨
        (n, (s.g v).wcc_pivot) ∈ s.msgs))

theorem pivInitG_fields (pi2 : Nat → Nat) (verts : Finset Nat)
    (g : Nat → VtxInfo) :
    ∀ v, ((pivInitG pi2 verts g) v).out = (g v).out ∧
      ((pivInitG pi2 verts g) v).in_ = (g v).in_ ∧
      ((pivInitG pi2 verts g) v).active = (g v).active := by
  intro v
  unfold pivInitG pivInitVtx
  split_ifs <;> exact ⟨rfl, rfl, rfl⟩

theorem pivInitG_active_wcc (pi2 : Nat → Nat) (verts : Finset Nat)
    (g : Nat → VtxInfo) (v : Nat) (hv : v ∈ verts)
    (ha : (g v).active = true) :
    ((pivInitG pi2 verts g) v).wcc_pivot = pi2 v ∧
      ((pivInitG pi2 verts g) v).my_pivot = pi2 v := by
  unfold pivInitG pivInitVtx
  rw [if_pos hv, if_pos ha]
  exact ⟨rfl, rfl⟩

theorem pivInv_init (pi2 : Nat → Nat) (verts : Finset Nat)
    (g : Nat → VtxInfo)
    (hver : ∀ v, (g v).active = true → v ∈ verts)
    (hclean : ∀ v, (g v).active = true →
      (∀ u ∈ (g v).out, (g u).active = true) ∧
      (∀ u ∈ (g v).in_, (g u).active = true)) :
    PivInv pi2 g ⟨pivInitG pi2 verts g,
      pivSeedsQueue pi2 verts (pivInitG pi2 verts g), 0⟩ := by
  have hf := pivInitG_fields pi2 verts g
  refine ⟨hf, ?_, ?_, ?_, ?_, ?_⟩
  · intro v hv
    refine ⟨v, Relation.ReflTransGen.refl, ?_⟩
    exact (pivInitG_active_wcc pi2 verts g v (hver v hv) hv).1
  · intro v hv
    rw [(pivInitG_active_wcc pi2 verts g v (hver v hv) hv).1]
  · intro e he
    obtain ⟨w, hw, rfl⟩ := Multiset.mem_map.mp he
    rw [Finset.mem_val, Finset.mem_filter] at hw
    have := hw.2.1
    rw [(hf w).2.2] at this
    exact this
  · intro e he
    simp at he
  · intro v hv hL
    left
    have hwm := pivInitG_active_wcc pi2 verts g v (hver v hv) hv
    refine Multiset.mem_map.mpr ⟨v, ?_, ?_⟩
    · rw [Finset.mem_val, Finset.mem_filter]
      refine ⟨hver v hv, ?_, ?_, ?_⟩
      · rw [(hf v).2.2]
        exact hv
      · intro d hd
        rw [(hf v).1] at hd
        rw [hwm.1]
        have hd_act : (g d).active = true := (hclean v hv).1 d hd
        have hmem : pi2 d ∈ pi2 '' {u | ReachA g v u} :=
          ⟨d, Relation.ReflTransGen.single ⟨hv, hd_act, Or.inl hd⟩, rfl⟩
        have := hL.2 hmem
        rw [hwm.1] at this
        omega
      · intro a ha
        rw [(hf v).2.1] at ha
        rw [hwm.1]
        have ha_act : (g a).active = true := (hclean v hv).2 a ha
        have hmem : pi2 a ∈ pi2 '' {u | ReachA g v u} :=
          ⟨a, Relation.ReflTransGen.single ⟨hv, ha_act, Or.inr ha⟩, rfl⟩
        have := hL.2 hmem
        rw [hwm.1] at this
        omega
    · rw [hwm.1, hwm.2]

theorem pivInv_step (pi2 : Nat → Nat) (g : Nat → VtxInfo) (hsym : SymG g)
    (b c : PivState) (hbc : PivStep b c) (hP : PivInv pi2 g b) :
    PivInv pi2 g c := by
  obtain ⟨hE, h1, h5, hQ, hM, hF⟩ := hP
  cases hbc with
  | pop_send p x hq hcur =>
    refine ⟨hE, h1, h5, ?_, ?_, ?_⟩
    · intro e he
      exact hQ e (Multiset.mem_of_mem_erase he)
    · intro e he hact
      dsimp only at he
      rcases Multiset.mem_add.mp he with he | he
      · exact hM e he hact
      · have hx_act : (g x).active = true := hQ (p, x) hq
        obtain ⟨u, hu, hwu⟩ := h1 x hx_act
        rcases Multiset.mem_add.mp he with he | he
        · obtain ⟨d, hd, heq⟩ := Multiset.mem_map.mp he
          rw [← heq] at hact ⊢
          dsimp only at hact ⊢
          rw [(hE x).1, Finset.mem_val] at hd
          exact ⟨u, Relation.ReflTransGen.head
            ⟨hact, hx_act, Or.inr ((hsym x d).mp hd)⟩ hu, hwu⟩
        · obtain ⟨d, hd, heq⟩ := Multiset.mem_map.mp he
          rw [← heq] at hact ⊢
          dsimp only at hact ⊢
          rw [(hE x).2.1, Finset.mem_val] at hd
          exact ⟨u, Relation.ReflTransGen.head
            ⟨hact, hx_act, Or.inl ((hsym d x).mpr hd)⟩ hu, hwu⟩
    · intro v hv hL
      dsimp only at hL ⊢
      by_cases hxv : x = v
      · subst hxv
        right
        intro n hn
        right
        refine Multiset.mem_add.mpr (Or.inr ?_)
        rcases hn.2.2 with hno | hni
        · refine Multiset.mem_add.mpr (Or.inl ?_)
          refine Multiset.mem_map.mpr ⟨n, ?_, rfl⟩
          rw [Finset.mem_val, (hE x).1]
          exact hno
        · refine Multiset.mem_add.mpr (Or.inr ?_)
          refine Multiset.mem_map.mpr ⟨n, ?_, rfl⟩
          rw [Finset.mem_val, (hE x).2.1]
          exact hni
      · rcases hF v hv hL with hqv | hcov
        · left
          refine (Multiset.mem_erase_of_ne ?_).mpr hqv
          intro hcon
          injection hcon with hc1 hc2
          exact hxv hc2.symm
        · right
          intro n hn
          rcases hcov n hn with h | h
          · exact Or.inl h
          · exact Or.inr (Multiset.mem_add.mpr (Or.inl h))
  | pop_stale p x hq hcur =>
    refine ⟨hE, h1, h5, ?_, hM, ?_⟩
    · intro e he
      exact hQ e (Multiset.mem_of_mem_erase he)
    · intro v hv hL
      dsimp only at hL ⊢
      rcases hF v hv hL with hqv | hcov
      · left
        refine (Multiset.mem_erase_of_ne ?_).mpr hqv
        intro hcon
        injection hcon with hc1 hc2
        subst hc2
        exact hcur hc1.symm
      · exact Or.inr hcov
  | deliver_upd n p hm hact hlt =>
    have hgn_act : (g n).active = true := by
      rw [← (hE n).2.2]
      exact hact
    have hE' : ∀ v,
        ((Function.update b.g n { b.g n with wcc_pivot := p }) v).out =
          (g v).out ∧
        ((Function.update b.g n { b.g n with wcc_pivot := p }) v).in_ =
          (g v).in_ ∧
        ((Function.update b.g n { b.g n with wcc_pivot := p }) v).active =
          (g v).active := by
      intro v
      by_cases hv : v = n
      · subst hv
        rw [Function.update_same]
        exact ⟨(hE v).1, (hE v).2.1, (hE v).2.2⟩
      · rw [Function.update_noteq hv]
        exact hE v
    refine ⟨hE', ?_, ?_, ?_, ?_, ?_⟩
    · intro v hv
      dsimp only
      by_cases hvn : v = n
      · subst hvn
        rw [Function.update_same]
        obtain ⟨u, hu, hpu⟩ := hM (v, p) hm hgn_act
        exact ⟨u, hu, hpu⟩
      · rw [Function.update_noteq hvn]
        exact h1 v hv
    · intro v hv
      dsimp only
      by_cases hvn : v = n
      · subst hvn
        rw [Function.update_same]
        have h5n := h5 v hv
        show p ≤ pi2 v
        omega
      · rw [Function.update_noteq hvn]
        exact h5 v hv
    · intro e he
      dsimp only at he
      rcases Multiset.mem_add.mp he with he | he
      · exact hQ e he
      · rw [Multiset.mem_singleton] at he
        subst he
        exact hgn_act
    · intro e he hact2
      exact hM e (Multiset.mem_of_mem_erase he) hact2
    · intro v hv hL
      dsimp only at hL ⊢
      by_cases hvn : v = n
      · subst hvn
        left
        rw [Function.update_same]
        exact Multiset.mem_add.mpr (Or.inr (Multiset.mem_singleton_self _))
      · rw [Function.update_noteq hvn] at hL ⊢
        rcases hF v hv hL with hqv | hcov
        · exact Or.inl (Multiset.mem_add.mpr (Or.inl hqv))
        · right
          intro n2 hn2
          by_cases hn2n : n2 = n
          · subst hn2n
            rw [Function.update_same]
            rcases hcov n2 hn2 with hle | hmsg
            · left
              show p ≤ (b.g v).wcc_pivot
              omega
            · by_cases hpv : (b.g v).wcc_pivot = p
              · left
                show p ≤ (b.g v).wcc_pivot
                omega
              · right
                refine (Multiset.mem_erase_of_ne ?_).mpr hmsg
                intro hcon
                injection hcon with hc1 hc2
                exact hpv hc2
          · rw [Function.update_noteq hn2n]
            rcases hcov n2 hn2 with hle | hmsg
            · exact Or.inl hle
            · right
              refine (Multiset.mem_erase_of_ne ?_).mpr hmsg
              intro hcon
              injection hcon with hc1 hc2
              exact hn2n hc1
  | deliver_drop n p hm hdrop =>
    refine ⟨hE, h1, h5, hQ, ?_, ?_⟩
    · intro e he hact2
      exact hM e (Multiset.mem_of_mem_erase he) hact2
    · intro v hv hL
      dsimp only at hL ⊢
      rcases hF v hv hL with hqv | hcov
      · exact Or.inl hqv
      · right
        intro n2 hn2
        rcases hcov n2 hn2 with hle | hmsg
        · exact Or.inl hle
        · by_cases hcon : (n2, (b.g v).wcc_pivot) = (n, p)
          · left
            injection hcon with hc1 hc2
            subst hc1
            subst hc2
            have hact2 : (b.g n2).active = true := by
              rw [(hE n2).2.2]
              exact hn2.2.1
            have hle2 : ¬((b.g v).wcc_pivot < (b.g n2).wcc_pivot) :=
              fun h => hdrop ⟨hact2, h⟩
            exact Nat.not_lt.mp hle2
          · exact Or.inr ((Multiset.mem_erase_of_ne hcon).mpr hmsg)

/-- C1 (amended): WCC-min correctness of pivot selection holds on clean
entry states — edge-symmetric maps in which every neighbor of an active
vertex is itself active (no stale references to frozen vertices) and
every active vertex belongs to the scanned carrier.  Then after any
quiescent pivot-selection run, every active vertex's `wcc_pivot` is the
least permuter image over the vertices reachable from it along active
undirected edges. -/
theorem c1_wcc_min_amended (pi2 : Nat → Nat) (verts : Finset Nat)
    (g gfin : Nat → VtxInfo)
    (hver : ∀ v, (g v).active = true → v ∈ verts)
    (hsym : SymG g)
    (hclean : ∀ v, (g v).active = true →
      (∀ u ∈ (g v).out, (g u).active = true) ∧
      (∀ u ∈ (g v).in_, (g u).active = true))
    (hrun : PivRun pi2 verts g gfin) :
    ∀ v, (gfin v).active = true →
      IsLeast (pi2 '' {u | ReachA gfin v u}) ((gfin v).wcc_pivot) := by
  have hInv : PivInv pi2 g ⟨gfin, 0, 0⟩ :=
    pivRTG_preserve (PivInv pi2 g) (pivInv_step pi2 g hsym) _ _ hrun
      (pivInv_init pi2 verts g hver hclean)
  obtain ⟨hE, h1, h5, hQ, hM, hF⟩ := hInv
  intro v hvfin
  have hv : (g v).active = true := by
    rw [← (hE v).2.2]
    exact hvfin
  have hFq : ∀ w, (g w).active = true →
      IsLeast (pi2 '' {u | ReachA g w u}) ((gfin w).wcc_pivot) →
      ∀ n, adjA g w n → (gfin n).wcc_pivot ≤ (gfin w).wcc_pivot := by
    intro w hw hleast n hn
    rcases hF w hw hleast with hq | hcov
    · exact absurd hq (by simp)
    · rcases hcov n hn with h | h
      · exact h
      · exact absurd h (by simp)
  have hne : (pi2 '' {u | ReachA g v u}).Nonempty :=
    ⟨pi2 v, ⟨v, Relation.ReflTransGen.refl, rfl⟩⟩
  obtain ⟨m, hmmem, hmin⟩ := Nat.lt_wfRel.wf.has_min _ hne
  obtain ⟨ustar, hustar, hpieq⟩ := hmmem
  have hustar_act : (g ustar).active = true := reachA_active g v ustar hv hustar
  have hsets : {w | ReachA g ustar w} = {w | ReachA g v w} :=
    reachA_set_eq g hsym v ustar hustar
  have hWu_le : (gfin ustar).wcc_pivot ≤ m := by
    rw [← hpieq]
    exact h5 ustar hustar_act
  have hWu_ge : m ≤ (gfin ustar).wcc_pivot := by
    obtain ⟨u2, hreach2, hWu2⟩ := h1 ustar hustar_act
    have hmem2 : pi2 u2 ∈ pi2 '' {u | ReachA g v u} := by
      refine ⟨u2, ?_, rfl⟩
      have : u2 ∈ {w | ReachA g ustar w} := hreach2
      rw [hsets] at this
      exact this
    have hnlt : ¬(pi2 u2 < m) := hmin (pi2 u2) hmem2
    rw [hWu2]
    exact Nat.not_lt.mp hnlt
  have hWu : (gfin ustar).wcc_pivot = m := le_antisymm hWu_le hWu_ge
  have hLu : IsLeast (pi2 '' {u | ReachA g ustar u}) ((gfin ustar).wcc_pivot) := by
    rw [hsets, hWu]
    exact ⟨⟨ustar, hustar, hpieq⟩,
      fun x hx => Nat.not_lt.mp (hmin x hx)⟩
  have habs : ∀ w, ReachA g ustar w →
      IsLeast (pi2 '' {u | ReachA g w u}) ((gfin w).wcc_pivot) := by
    intro w hw
    induction hw with
    | refl => exact hLu
    | @tail b2 c2 hab hbc ih =>
      have hWc_le : (gfin c2).wcc_pivot ≤ (gfin b2).wcc_pivot :=
        hFq b2 hbc.1 ih c2 hbc
      have hsets_bc : {u | ReachA g c2 u} = {u | ReachA g b2 u} :=
        reachA_set_eq g hsym b2 c2 (Relation.ReflTransGen.single hbc)
      obtain ⟨u2, hr2, hW2⟩ := h1 c2 hbc.2.1
      have hWc_mem : (gfin c2).wcc_pivot ∈ pi2 '' {u | ReachA g c2 u} :=
        ⟨u2, hr2, hW2.symm⟩
      have hWb_le : (gfin b2).wcc_pivot ≤ (gfin c2).wcc_pivot := by
        refine ih.2 ?_
        rw [← hsets_bc]
        exact hWc_mem
      have hWeq : (gfin c2).wcc_pivot = (gfin b2).wcc_pivot :=
        le_antisymm hWc_le hWb_le
      refine ⟨hWc_mem, ?_⟩
      rw [hsets_bc, hWeq]
      exact ih.2
  have hv_least := habs v (reachA_symm g hsym v ustar hustar)
  have hsets_fin : {u | ReachA gfin v u} = {u | ReachA g v u} :=
    Set.ext fun u => reachA_congr g gfin hE v u
  rw [hsets_fin]
  exact hv_least

/-- A clean entry map for the C1 witness: only vertex 1 is active, with
no edges. -/
def gC1w : Nat → VtxInfo := fun v =>
  if v = 1 then { out := ∅, in_ := ∅ }
  else { out := ∅, in_ := ∅, active := false }

/-- The quiescent map of the witness run. -/
def gC1wfin : Nat → VtxInfo := pivInitG (fun v => v) {1} gC1w

theorem gC1w_run : PivRun (fun v => v) {1} gC1w gC1wfin := by
  unfold PivRun
  have h := PivStep.pop_send ⟨gC1wfin,
    pivSeedsQueue (fun v => v) {1} (pivInitG (fun v => v) {1} gC1w), 0⟩ 1 1
    (by decide) (by decide)
  have e : (⟨gC1wfin,
      (pivSeedsQueue (fun v => v) {1}
        (pivInitG (fun v => v) {1} gC1w)).erase (1, 1),
      0 + ((gC1wfin 1).out.val.map (fun d => (d, (gC1wfin 1).wcc_pivot)) +
        (gC1wfin 1).in_.val.map (fun a => (a, (gC1wfin 1).wcc_pivot)))⟩ :
      PivState) = ⟨gC1wfin, 0, 0⟩ := by
    have hq : (pivSeedsQueue (fun v => v) {1}
        (pivInitG (fun v => v) {1} gC1w)).erase (1, 1) =
        (0 : Multiset (Nat × Nat)) := by decide
    have hm : (0 + ((gC1wfin 1).out.val.map
        (fun d => (d, (gC1wfin 1).wcc_pivot)) +
        (gC1wfin 1).in_.val.map (fun a => (a, (gC1wfin 1).wcc_pivot)))) =
        (0 : Multiset (Nat × Nat)) := by decide
    rw [hq, hm]
  exact Relation.ReflTransGen.single (e ▸ h)

/-- Witness for C1 (amended): the singleton clean graph, with the
identity as permuter — the seeded queue entry is popped once and the
phase quiesces with vertex 1 holding the least image of its reachable
set. -/
theorem c1_wcc_min_amended_witness :
    IsLeast ((fun v => v) '' {u | ReachA gC1wfin 1 u})
      ((gC1wfin 1).wcc_pivot) := by
  have hempty : ∀ x, (gC1w x).out = ∅ ∧ (gC1w x).in_ = ∅ := by
    intro x
    unfold gC1w
    split_ifs <;> exact ⟨rfl, rfl⟩
  refine c1_wcc_min_amended (fun v => v) {1} gC1w gC1wfin ?_ ?_ ?_ gC1w_run 1
    (by decide)
  · intro v hv
    by_cases h1 : v = 1
    · subst h1
      simp
    · exfalso
      simp [gC1w, h1] at hv
  · intro u v
    rw [(hempty u).1, (hempty v).2]
    simp
  · intro v hv
    constructor
    · intro u hu
      rw [(hempty v).1] at hu
      simp at hu
    · intro u hu
      rw [(hempty v).2] at hu
      simp at hu
